import Mathlib

/-!
Verification of the app-compose engine of athom-cli
(src/lib/AppPluginCompose/index.js, helpers in src/lib/AppPlugin).

The engine assembles a canonical app.json manifest from scattered JSON
fragment files.  We shallowly embed the JavaScript code: JSON documents
become the inductive type Json below, JavaScript objects become ordered
association lists (JavaScript objects preserve insertion order; values
produced by JSON.parse never contain duplicate keys), and the fallible
parts of the code return Except String.  JSON numbers are modelled as
integers: the code performs no numeric computation, only truthiness
tests, for which 0 is the only falsy number that matters here.
-/

set_option maxHeartbeats 1000000

namespace AthomCompose

/-- A JSON document, as produced by JSON.parse.  Objects are ordered
association lists, mirroring JavaScript property insertion order. -/
inductive Json where
  | null : Json
  | bool : Bool → Json
  | num : Int → Json
  | str : String → Json
  | arr : List Json → Json
  | obj : List (String × Json) → Json
  deriving Repr, Inhabited

mutual

/-- Structural equality test for JSON documents. -/
def beqJson : Json → Json → Bool
  | .null, .null => true
  | .bool a, .bool b => a == b
  | .num a, .num b => a == b
  | .str a, .str b => a == b
  | .arr xs, .arr ys => beqJsonList xs ys
  | .obj fs, .obj gs => beqJsonFields fs gs
  | _, _ => false

def beqJsonList : List Json → List Json → Bool
  | [], [] => true
  | x :: xs, y :: ys => beqJson x y && beqJsonList xs ys
  | _, _ => false

def beqJsonFields : List (String × Json) → List (String × Json) → Bool
  | [], [] => true
  | (k, v) :: fs, (l, w) :: gs => k == l && beqJson v w && beqJsonFields fs gs
  | _, _ => false

end

mutual

theorem beqJson_iff : ∀ a b : Json, beqJson a b = true ↔ a = b
  | .null, b => by cases b <;> simp [beqJson]
  | .bool a, b => by cases b <;> simp [beqJson]
  | .num a, b => by cases b <;> simp [beqJson]
  | .str a, b => by cases b <;> simp [beqJson]
  | .arr xs, b => by
      cases b <;> simp [beqJson]
      exact beqJsonList_iff xs _
  | .obj fs, b => by
      cases b <;> simp [beqJson]
      exact beqJsonFields_iff fs _

theorem beqJsonList_iff : ∀ xs ys : List Json, beqJsonList xs ys = true ↔ xs = ys
  | [], ys => by cases ys <;> simp [beqJsonList]
  | x :: xs, ys => by
      cases ys with
      | nil => simp [beqJsonList]
      | cons y ys =>
        simp only [beqJsonList, Bool.and_eq_true, beqJson_iff x y,
          beqJsonList_iff xs ys, List.cons.injEq]

theorem beqJsonFields_iff :
    ∀ fs gs : List (String × Json), beqJsonFields fs gs = true ↔ fs = gs
  | [], gs => by cases gs <;> simp [beqJsonFields]
  | (k, v) :: fs, gs => by
      cases gs with
      | nil => simp [beqJsonFields]
      | cons g gs =>
        obtain ⟨l, w⟩ := g
        simp only [beqJsonFields, Bool.and_eq_true, beqJson_iff v w,
          beqJsonFields_iff fs gs, List.cons.injEq, beq_iff_eq, Prod.mk.injEq]
        try tauto

end

instance : DecidableEq Json := fun a b =>
  decidable_of_iff (beqJson a b = true) (beqJson_iff a b)

/-- The fields of an in-progress manifest object (a JavaScript object). -/
abbrev Doc := List (String × Json)

/-- JavaScript truthiness of a JSON value. -/
def truthy : Json → Bool
  | .null => false
  | .bool b => b
  | .num n => n != 0
  | .str s => s != ""
  | .arr _ => true
  | .obj _ => true

/-- isMergeableObject of the deepmerge library: non-null objects,
including arrays (RegExp and Date cannot occur in parsed JSON). -/
def isMergeable : Json → Bool
  | .arr _ => true
  | .obj _ => true
  | _ => false

/-- First value stored under key k (JavaScript objects have no duplicate
keys, so the first match is the only match). -/
def getKey : Doc → String → Option Json
  | [], _ => none
  | kv :: d, k => if kv.1 == k then some kv.2 else getKey d k

/-- Property assignment obj[k] = v on a JavaScript object: updates the
value in place if the key exists (keeping its position), otherwise
appends the key at the end. -/
def setKey (d : Doc) (k : String) (v : Json) : Doc :=
  if (getKey d k).isSome then
    d.map (fun kv => if kv.1 == k then (k, v) else kv)
  else
    d ++ [(k, v)]

/-- delete obj[k]. -/
def delKey (d : Doc) (k : String) : Doc :=
  d.filter (fun kv => kv.1 != k)

def keys (d : Doc) : List String := d.map (·.1)

/-- s.startsWith t over the character list (the library version is not
definitionally reducible, so the embedding uses a structural
equivalent with the same meaning). -/
def strStartsWith (s t : String) : Bool := s.data.take t.data.length == t.data

/-- s.endsWith t over the character list. -/
def strEndsWith (s t : String) : Bool := s.data.drop (s.data.length - t.data.length) == t.data

/-- The canonical numeric string parse (all digits, non-empty), as the
object-path library uses for array indices. -/
def strToNat? (s : String) : Option Nat :=
  if !s.data.isEmpty && s.data.all (fun c => c.isDigit) then
    some (s.data.foldl (fun n c => n * 10 + (c.toNat - 48)) 0)
  else none

/-- id.split "." on the character list. -/
def splitOnDotChars : List Char → List (List Char)
  | [] => [[]]
  | c :: rest =>
    match splitOnDotChars rest with
    | [] => [[]]
    | g :: gs => if c == '.' then [] :: g :: gs else (c :: g) :: gs

/-- JavaScript id.split("."). -/
def splitOnDot (s : String) : List String :=
  (splitOnDotChars s.data).map String.mk

/-- Own enumerable properties of a value, as spread ({...v}) and
Object.keys see them: an object's fields, an array's or a string's
indexed elements, nothing for primitives. -/
def ownFields : Json → Doc
  | .obj fs => fs
  | .arr xs => xs.enum.map (fun p => (toString p.1, p.2))
  | .str s => s.data.enum.map (fun p => (toString p.1, Json.str (String.singleton p.2)))
  | _ => []

/-- Property read v[k] (undefined becomes none).  Arrays support
canonical numeric indices, like JavaScript.  (Indexing into boxed
string primitives is not modelled; the compose engine never stores
strings where it later indexes by key.) -/
def getProp : Json → String → Option Json
  | .obj fs, k => getKey fs k
  | .arr xs, k =>
    match strToNat? k with
    | some i => if h : i < xs.length then some xs[i] else none
    | none => none
  | _, _ => none

/-- v[k] when it is present and truthy, as tested by the pervasive
JavaScript pattern (v[k] || fallback). -/
def getTruthy (j : Json) (k : String) : Option Json :=
  match getProp j k with
  | some v => if truthy v then some v else none
  | none => none

/-- JavaScript String(v) coercion, used when a JSON value is used as an
object property key. -/
def jsToString : Json → String
  | .null => "null"
  | .bool true => "true"
  | .bool false => "false"
  | .num n => toString n
  | .str s => s
  | .arr _ => "object Array"
  | .obj _ => "[object Object]"

/-- path.basename(id, ".json"): strips a trailing ".json" unless the
name is nothing but the extension. -/
def stripJson (s : String) : String :=
  if strEndsWith s ".json" && s.data.length > 5 then
    String.mk (s.data.take (s.data.length - 5))
  else s

/-- The object spread {...a, ...b}: a's keys keep their positions, b
overrides values of shared keys, b-only keys are appended in b's
order. -/
def spreadFields (a b : Doc) : Doc :=
  a.map (fun kv =>
    match getKey b kv.1 with
    | some v => (kv.1, v)
    | none => kv)
  ++ b.filter (fun kv => (getKey a kv.1).isNone)

/-- Strict-mode property assignment j.k = v: objects are updated,
assignments onto arrays succeed but are invisible to JSON.stringify
(so the array is unchanged as a JSON document), assignments onto
primitives throw a TypeError. -/
def jsSetProp (j : Json) (k : String) (v : Json) : Except String Json :=
  match j with
  | .obj fs => .ok (.obj (setKey fs k v))
  | .arr xs => .ok (.arr xs)
  | _ => .error "TypeError: cannot create property on primitive"

/-- Property assignment j.k = undefined: JSON.stringify drops keys whose
value is undefined, so on the document level this deletes the key. -/
def jsSetUndefined (j : Json) (k : String) : Except String Json :=
  match j with
  | .obj fs => .ok (.obj (delKey fs k))
  | .arr xs => .ok (.arr xs)
  | _ => .error "TypeError: cannot create property on primitive"

mutual

/-- removeDollarPropertiesRecursive of _saveAppJson: recursively deletes
every object key starting with the dollar marker.  typeof tests arrays
(and null) as objects, so the pass recurses through array elements;
array index keys never start with a dollar. -/
def removeDollarPropertiesRecursive : Json → Json
  | .obj fs => .obj (stripDollarFields fs)
  | .arr xs => .arr (stripDollarList xs)
  | j => j

def stripDollarList : List Json → List Json
  | [] => []
  | x :: xs => removeDollarPropertiesRecursive x :: stripDollarList xs

def stripDollarFields : Doc → Doc
  | [] => []
  | (k, v) :: fs =>
    if strStartsWith k "$" then stripDollarFields fs
    else (k, removeDollarPropertiesRecursive v) :: stripDollarFields fs

end

mutual

/-- No key anywhere in the document starts with the dollar marker. -/
def noDollarKeys : Json → Bool
  | .obj fs => noDollarKeysFields fs
  | .arr xs => noDollarKeysList xs
  | _ => true

def noDollarKeysList : List Json → Bool
  | [] => true
  | x :: xs => noDollarKeys x && noDollarKeysList xs

def noDollarKeysFields : Doc → Bool
  | [] => true
  | (k, v) :: fs => !(strStartsWith k "$") && noDollarKeys v && noDollarKeysFields fs

end

mutual

/-- The document contains the key k at some nesting depth. -/
def containsKey : Json → String → Bool
  | .obj fs, k => containsKeyFields fs k
  | .arr xs, k => containsKeyList xs k
  | _, _ => false

def containsKeyList : List Json → String → Bool
  | [], _ => false
  | x :: xs, k => containsKey x k || containsKeyList xs k

def containsKeyFields : Doc → String → Bool
  | [], _ => false
  | (l, v) :: fs, k => l == k || containsKey v k || containsKeyFields fs k

end

/-- The target-copy that starts mergeObject's destination: the target's
own fields when the target is a mergeable object, nothing otherwise.
(An array target never reaches mergeObject: the array/non-array
mismatch branch returns the source first.) -/
def mergeBase : Json → Doc
  | .obj fs => fs
  | _ => []

/-- mergeObject when the source is a primitive: every own field of the
source (only a string primitive has any) is non-mergeable, so each is
copied over the target copy without recursion. -/
def mergeScalarSource (t s : Json) : Doc :=
  (ownFields s).foldl (fun dest kv => setKey dest kv.1 kv.2) (mergeBase t)

mutual

/-- Embedding of the deepmerge npm library (default options, as called
by _composeLocales): arrays are concatenated (defaultArrayMerge), a
type mismatch between array and non-array returns a clone of the
source, otherwise mergeObject combines the two values: it copies the
target's own fields and then walks the source's own fields, recursing
when the source value is mergeable and the target value is truthy and
taking the source value otherwise.  A non-object, non-array source
has no own fields worth recursing into, so its merge is the plain
upsert fold mergeScalarSource. -/
def deepmerge : Json → Json → Json
  | .arr xs, .arr ys => .arr (xs ++ ys)
  | _, .arr ys => .arr ys
  | .arr _, s => s
  | t, .obj sf => .obj (mergeFieldsFold t sf (mergeBase t))
  | t, s => .obj (mergeScalarSource t s)

/-- The source-keys loop of deepmerge's mergeObject. -/
def mergeFieldsFold (t : Json) : Doc → Doc → Doc
  | [], dest => dest
  | (k, sv) :: rest, dest =>
    let newVal :=
      if isMergeable sv then
        match getTruthy t k with
        | some tv => deepmerge tv sv
        | none => sv
      else sv
    mergeFieldsFold t rest (setKey dest k newVal)

end

/-- deepmerge(undefined, s), which _composeLocales reaches when a dotted
subpath does not yet exist in the language tree: a source array is
cloned; a source object whose values are all non-mergeable is copied
key by key (the target is never dereferenced thanks to the
short-circuit), but any mergeable source value makes the library read
a property of undefined and throw. -/
def deepmergeUndefined (s : Json) : Except String Json :=
  match s with
  | .arr ys => .ok (.arr ys)
  | s =>
    if (ownFields s).any (fun kv => isMergeable kv.2) then
      .error "TypeError: cannot read property of undefined"
    else
      .ok (.obj (ownFields s))

mutual

/-- Modelled from the spec: the deep merge the specification describes,
in which mapping values merge recursively key by key and every
non-mapping value (scalar or sequence) of the later source entirely
replaces the earlier value.  Used only to compare the specified merge
with the one the code performs. -/
def deepmergeSpecReplace : Json → Json → Json
  | .obj tf, .obj sf => .obj (specMergeFields tf sf)
  | _, s => s

/-- Key-by-key recursive merge loop of deepmergeSpecReplace. -/
def specMergeFields (tf : Doc) : Doc → Doc
  | [] => tf
  | (k, sv) :: rest =>
    let merged :=
      match getKey tf k with
      | some tv => deepmergeSpecReplace tv sv
      | none => sv
    specMergeFields (setKey tf k merged) rest

end

/-! objectPath.get / objectPath.set of the object-path npm library, as
called by _composeLocales with a non-empty path of string keys. -/

/-- objectPath.get: walk the path; a missing property or a primitive
node yields undefined (none). -/
def opGet : Json → List String → Option Json
  | j, [] => some j
  | j, p :: ps =>
    match getProp j p with
    | some c => opGet c ps
    | none => none

/-- Array element assignment a[i] = v: JavaScript extends a too-short
array with holes, which JSON.stringify prints as null. -/
def padSet (xs : List Json) (i : Nat) (v : Json) : List Json :=
  if i < xs.length then xs.set i v
  else xs ++ List.replicate (i - xs.length) Json.null ++ [v]

/-- The leaf assignment obj[p] = v of objectPath.set.  The library is
not strict-mode code, so assignment onto a primitive fails silently. -/
def opSetLeaf (j : Json) (p : String) (v : Json) : Json :=
  match j with
  | .obj fs => .obj (setKey fs p v)
  | .arr xs =>
    match strToNat? p with
    | some i => .arr (padSet xs i v)
    | none => .arr xs
  | j => j

/-- objectPath.set along a non-trivial path: an existing child is
descended into; a missing child of an object is created as an empty
object (the path keys are strings, never numbers, so the array branch
of the library is dead); a missing child of an array behind a
non-numeric key is assigned but invisible to JSON.stringify, so the
document keeps the array unchanged (errors inside the discarded
recursion still propagate); descending into a primitive dereferences
undefined and throws. -/
def opSet : Json → List String → Json → Except String Json
  | _, [], v => .ok v
  | j, [p], v => .ok (opSetLeaf j p v)
  | j, p :: ps, v =>
    match getProp j p with
    | some c => do
      let c2 ← opSet c ps v
      .ok (opSetLeaf j p c2)
    | none =>
      match j with
      | .obj fs => do
        let c2 ← opSet (.obj []) ps v
        .ok (.obj (setKey fs p c2))
      | .arr xs =>
        match strToNat? p with
        | some i => do
          let c2 ← opSet (.obj []) ps v
          .ok (.arr (padSet xs i c2))
        | none => do
          let _ ← opSet (.obj []) ps v
          .ok (.arr xs)
      | _ => .error "TypeError: cannot read property of undefined"

/-! The filesystem snapshot the compose plugin reads.  Directory
listings are given in the order the engine iterates them (readdir
order; for the objects _getJsonFiles builds, property enumeration
order).  Every fragment is a parsed JSON document; a file whose JSON
is malformed aborts the run before anything here is reached, so parse
errors are not modelled. -/

/-- One subdirectory of /drivers: its name and the three per-driver
compose files (none when the file is absent). -/
structure DriverEntry where
  name : String
  compose : Option Json
  settings : Option Json
  flow : Option Json
  deriving Repr, DecidableEq

/-- Everything the compose run reads from disk. -/
structure ComposeFS where
  /-- /app.json, the base manifest (none when the file is absent). -/
  appJson : Option Json
  /-- /.homeycompose/app.json, the overlay (none when absent). -/
  appJsonCompose : Option Json
  /-- /.homeycompose/flow/triggers, conditions, actions: fragment id
  (file name without .json) and parsed content, in listing order. -/
  flowTriggers : List (String × Json)
  flowConditions : List (String × Json)
  flowActions : List (String × Json)
  /-- /.homeycompose/drivers/templates, keyed by file id. -/
  templates : List (String × Json)
  /-- File names inside /.homeycompose/drivers/pair. -/
  pairViews : List String
  /-- /drivers subdirectories in listing order. -/
  drivers : List DriverEntry
  /-- /.homeycompose/capabilities. -/
  capabilities : List (String × Json)
  /-- /.homeycompose/signals/433, /868, /ir. -/
  signals433 : List (String × Json)
  signals868 : List (String × Json)
  signalsIR : List (String × Json)
  /-- /.homeycompose/screensavers. -/
  screensavers : List (String × Json)
  /-- /locales (app-level locale files), keyed by file id. -/
  appLocales : List (String × Json)
  /-- /.homeycompose/locales, keyed by file id, in listing order. -/
  localeFragments : List (String × Json)
  deriving Repr

/-! The compose steps, in the order run() executes them. -/

/-- The first two lines of _addFlowCard: resolve the card id (internal
override, else the card's own id, else the caller-supplied fallback;
first truthy wins) and store it on the card.  When no candidate id is
truthy the id property is assigned undefined, which JSON.stringify
drops. -/
def resolveCardId (card : Json) (fallbackId : Option String) : Except String Json :=
  let cardId :=
    match getTruthy card "$id" with
    | some v => some v
    | none =>
      match getTruthy card "id" with
      | some v => some v
      | none => fallbackId.map Json.str
  match cardId with
  | some v => jsSetProp card "id" v
  | none => jsSetUndefined card "id"

/-- The push of _addFlowCard: this._appJson.flow and flow[type] are
defaulted when falsy and the card is appended.  The flow key was
deleted at the start of _composeFlow, so it only ever holds objects
built here; the remaining branches mirror what the JavaScript
assignments would do anyway (an array absorbs the property invisibly,
a primitive throws). -/
def pushFlowCard (d : Doc) (ty : String) (card : Json) : Except String Doc :=
  let flowV :=
    match getKey d "flow" with
    | some v => if truthy v then v else Json.obj []
    | none => Json.obj []
  match flowV with
  | .obj flowFs =>
    let tyV :=
      match getKey flowFs ty with
      | some v => if truthy v then v else Json.arr []
      | none => Json.arr []
    match tyV with
    | .arr cs => .ok (setKey d "flow" (.obj (setKey flowFs ty (.arr (cs ++ [card])))))
    | _ => .error "TypeError: push is not a function"
  | .arr _ => .ok d
  | _ => .error "TypeError: cannot create property on primitive"

/-- _addFlowCard. -/
def addFlowCard (d : Doc) (ty : String) (card : Json) (fallbackId : Option String) :
    Except String Doc := do
  let card2 ← resolveCardId card fallbackId
  pushFlowCard d ty card2

/-- The per-kind loop of _composeFlow: every fragment becomes a card,
with the file id (stripped of a redundant .json a second time by
path.basename) as fallback id. -/
def addFlowCards (d : Doc) (ty : String) (cards : List (String × Json)) :
    Except String Doc :=
  cards.foldlM (fun d p => addFlowCard d ty p.2 (some (stripJson p.1))) d

/-- _composeFlow: discard any existing flow section, then add the global
fragment cards, triggers first, then conditions, then actions. -/
def composeFlow (tr cond act : List (String × Json)) (d : Doc) : Except String Doc := do
  let d ← addFlowCards (delKey d "flow") "triggers" tr
  let d ← addFlowCards d "conditions" cond
  addFlowCards d "actions" act

/-- The $extends resolution of _composeDrivers: a truthy $extends is
normalized to an array, the named templates are folded left to right
with object spread (an id absent from the template table spreads
undefined, a no-op), and the driver's own fields are spread last.
Property keys are coerced the way JavaScript coerces them. -/
def resolveExtends (templates : List (String × Json)) (dj : Json) : Json :=
  match getTruthy dj "$extends" with
  | none => dj
  | some ext =>
    let extList := match ext with | .arr xs => xs | v => [v]
    let dj2 :=
      match dj with
      | .obj fs => Json.obj (setKey fs "$extends" (.arr extList))
      | other => other
    let tj := extList.foldl (fun acc tid =>
        match getKey templates (jsToString tid) with
        | some t => spreadFields acc (ownFields t)
        | none => acc) []
    .obj (spreadFields tj (ownFields dj2))

/-- The per-card rewrite of the driver flow merge (lines 185-190):
card.args is assigned cards.args || [] - cards is the array of cards,
whose args property is always undefined, so the card's own argument
list is replaced by an empty array - and the device argument is then
unshifted onto it. -/
def composeDriverCard (driverId : String) (card : Json) : Except String Json := do
  let card ← jsSetProp card "args" (.arr [])
  let dev := Json.obj
    [("type", .str "device"),
     ("name", (getTruthy card "$deviceName").getD (.str "device")),
     ("filter", .str ("driver_id=" ++ driverId))]
  jsSetProp card "args" (.arr [dev])

/-- The driver.flow.compose.json merge: for each flow kind, a truthy
array of cards is rewritten card by card and pushed with no fallback
id; a falsy or non-array value is skipped (a non-array has no length
to iterate). -/
def composeDriverFlow (driverId : String) (fj : Json) (d : Doc) : Except String Doc :=
  ["triggers", "conditions", "actions"].foldlM (fun d ty =>
    match getTruthy fj ty with
    | some (.arr cs) =>
      cs.foldlM (fun d c => do
        let c2 ← composeDriverCard driverId c
        addFlowCard d ty c2 none) d
    | _ => .ok d) d

/-- The pair-view template check: a truthy $template must name (with
strict equality, so only a string can match) one of the compose pair
view directories. -/
def pairTemplateCheck (pv : List String) (driverName : String) (view : Json) :
    Except String Unit :=
  match getTruthy view "$template" with
  | some (.str tid) =>
    if pv.contains tid then .ok ()
    else .error ("Invalid pair template for driver " ++ driverName ++ ": " ++ tid)
  | some _ => .error ("Invalid pair template for driver " ++ driverName)
  | none => .ok ()

/-- _.findWhere(pair, { id: viewId }) followed by view.options =
options: the first view whose id strictly equals the given key gets
the options property. -/
def setViewOptions : List Json → String → Json → List Json
  | [], _, _ => []
  | v :: vs, viewId, options =>
    if getProp v "id" == some (.str viewId) then
      (match v with
       | .obj fs => Json.obj (setKey fs "options" options)
       | other => other) :: vs
    else v :: setViewOptions vs viewId options

/-- The $pairOptions application: each entry names a view id and the
options to store on that view. -/
def applyPairOptions (dj : Json) (views : List Json) : List Json :=
  match getTruthy dj "$pairOptions" with
  | some po => (ownFields po).foldl (fun vs kv => setViewOptions vs kv.1 kv.2) views
  | none => views

/-- The pair block of _composeDrivers, restricted to its effect on the
manifest: when driverJson.pair is an array, every view's $template
must be a known pair view directory (the html/asset copying only
touches files), and $pairOptions attaches options to the named views.
In the source the options pass runs once per view iteration; the pass
is idempotent and touches no field the template checks read, so its
net effect on a successful run is a single application. -/
def composeDriverPair (pairViews : List String) (driverName : String) (dj : Json) :
    Except String Json :=
  match getProp dj "pair" with
  | some (.arr views) => do
    let pv := pairViews.filter (fun v => !(strStartsWith v "."))
    let _ ← views.foldlM (fun _ v => pairTemplateCheck pv driverName v) ()
    .ok (match dj with
         | .obj fs => Json.obj (setKey fs "pair" (.arr (applyPairOptions dj views)))
         | other => other)
  | _ => .ok dj

/-- The document-independent part of the driver loop body: a missing
driver.compose.json is an uncaught ENOENT; resolve $extends; force id
to the directory name; attach the settings fragment when present; run
the pair block.  These steps (lines 93-171) precede the flow merge
and the push. -/
def resolveDriverJson (templates : List (String × Json)) (pairViews : List String)
    (e : DriverEntry) : Except String Json := do
  let dj0 ←
    match e.compose with
    | some j => .ok j
    | none => .error ("ENOENT: no such file drivers/" ++ e.name ++ "/driver.compose.json")
  let dj1 := resolveExtends templates dj0
  let dj2 ← jsSetProp dj1 "id" (.str e.name)
  let dj3 ←
    match e.settings with
    | some s => jsSetProp dj2 "settings" s
    | none => .ok dj2
  composeDriverPair pairViews e.name dj3

/-- The push onto this._appJson.drivers. -/
def pushDriver (d : Doc) (dj : Json) : Except String Doc :=
  let driversV :=
    match getKey d "drivers" with
    | some v => if truthy v then v else Json.arr []
    | none => Json.arr []
  match driversV with
  | .arr ds => .ok (setKey d "drivers" (.arr (ds ++ [dj])))
  | _ => .error "TypeError: push is not a function"

/-- The body of the driver loop of _composeDrivers: skip dot
directories; build the driver document; merge the driver flow
fragment into the manifest's flow section; push the driver. -/
def driverStep (templates : List (String × Json)) (pairViews : List String)
    (d : Doc) (e : DriverEntry) : Except String Doc :=
  if strStartsWith e.name "." then .ok d else do
  let dj ← resolveDriverJson templates pairViews e
  let d2 ←
    match e.flow with
    | some fj => composeDriverFlow e.name fj d
    | none => .ok d
  pushDriver d2 dj

/-- _composeDrivers: discard any existing drivers section and process
the driver directories in listing order. -/
def composeDrivers (templates : List (String × Json)) (pairViews : List String)
    (drivers : List DriverEntry) (d : Doc) : Except String Doc :=
  drivers.foldlM (driverStep templates pairViews) (delKey d "drivers")

/-- The capability id: the internal $id override when truthy (coerced
to a property key), else the fragment's file id. -/
def capabilityKey (fid : String) (cap : Json) : String :=
  match getTruthy cap "$id" with
  | some v => jsToString v
  | none => fid

/-- _composeCapabilities: discard the section and upsert each fragment
under its resolved id; the later fragment wins a collision.  The
non-object fallthrough is unreachable because the key is deleted
first and only objects are stored under it. -/
def capabilityStep (d : Doc) (p : String × Json) : Doc :=
  let capsV :=
    match getKey d "capabilities" with
    | some v => if truthy v then v else Json.obj []
    | none => Json.obj []
  match capsV with
  | .obj cs => setKey d "capabilities" (.obj (setKey cs (capabilityKey p.1 p.2) p.2))
  | _ => d

def composeCapabilities (caps : List (String × Json)) (d : Doc) : Doc :=
  caps.foldl capabilityStep (delKey d "capabilities")

/-- The signal id: the internal $id override when truthy, else
path.basename(fileId, ".json") of the already-extensionless file
id. -/
def signalKey (fid : String) (sig : Json) : String :=
  match getTruthy sig "$id" with
  | some v => jsToString v
  | none => stripJson fid

/-- The per-frequency loop of _composeSignals. -/
def signalStep (freq : String) (d : Doc) (p : String × Json) : Doc :=
  let sigsV :=
    match getKey d "signals" with
    | some v => if truthy v then v else Json.obj []
    | none => Json.obj []
  match sigsV with
  | .obj ss =>
    let freqV :=
      match getKey ss freq with
      | some v => if truthy v then v else Json.obj []
      | none => Json.obj []
    match freqV with
    | .obj fsigs =>
      setKey d "signals" (.obj (setKey ss freq (.obj (setKey fsigs (signalKey p.1 p.2) p.2))))
    | _ => d
  | _ => d

def addSignals (freq : String) (sigs : List (String × Json)) (d : Doc) : Doc :=
  sigs.foldl (signalStep freq) d

/-- _composeSignals: discard the section, then populate the three fixed
frequency bands in order. -/
def composeSignals (s433 s868 sIR : List (String × Json)) (d : Doc) : Doc :=
  addSignals "ir" sIR (addSignals "868" s868 (addSignals "433" s433 (delKey d "signals")))

/-- _composeScreensavers: discard the section; each screensaver's name
becomes $name || name || fragment id and the screensaver is pushed. -/
def composeScreensavers (scrs : List (String × Json)) (d : Doc) : Except String Doc :=
  scrs.foldlM (fun d p => do
    let nameV :=
      match getTruthy p.2 "$name" with
      | some v => v
      | none =>
        match getTruthy p.2 "name" with
        | some v => v
        | none => Json.str p.1
    let scr ← jsSetProp p.2 "name" nameV
    let listV :=
      match getKey d "screensavers" with
      | some v => if truthy v then v else Json.arr []
      | none => Json.arr []
    match listV with
    | .arr xs => .ok (setKey d "screensavers" (.arr (xs ++ [scr])))
    | _ => .error "TypeError: push is not a function")
    (delKey d "screensavers")

/-- The running state of _composeLocales: the locale trees (as read from
/locales and updated in place) and the list of changed languages. -/
structure LocaleState where
  locales : List (String × Json)
  changed : List String
  deriving Repr, DecidableEq

/-- The appLocales[lang] = appLocales[lang] || {} default of
_composeLocales. -/
def localeBase (locales : List (String × Json)) (lang : String) : Json :=
  match getKey locales lang with
  | some v => if truthy v then v else Json.obj []
  | none => Json.obj []

/-- The merge of one compose locale fragment into a language tree: a
fragment with no dotted subpath deep-merges into the root; a dotted
subpath deep-merges with the value objectPath.get finds there (with
the library's behavior on a missing value) and objectPath.set writes
the result back. -/
def localeMerge (base : Json) (rest : List String) (frag : Json) : Except String Json :=
  if rest.isEmpty then .ok (deepmerge base frag)
  else do
    let merged ←
      match opGet base rest with
      | some v => .ok (deepmerge v frag)
      | none => deepmergeUndefined frag
    opSet base rest merged

/-- One compose locale fragment: split the id on dots (after stripping a
redundant .json a second time), take the language, default the
language tree, merge, store the updated tree back under the language
(the default assignment happens first, the merged tree replaces it in
place), and record the language as changed. -/
def localeFragmentStep (st : LocaleState) (p : String × Json) : Except String LocaleState := do
  let parts := splitOnDot (stripJson p.1)
  let lang := parts.headD ""
  let rest := parts.tail
  let base := localeBase st.locales lang
  let newTree ← localeMerge base rest p.2
  .ok { locales := setKey (setKey st.locales lang base) lang newTree
        changed := if st.changed.contains lang then st.changed else st.changed ++ [lang] }

/-- The merging loop of _composeLocales. -/
def composeLocalesCore (appLocales : List (String × Json)) (frags : List (String × Json)) :
    Except String LocaleState :=
  frags.foldlM localeFragmentStep { locales := appLocales, changed := [] }

/-- The files _composeLocales writes back: one locales/lang.json per
changed language, holding that language's merged tree, with no
dollar-key stripping of any kind. -/
def localesWritten (st : LocaleState) : List (String × Json) :=
  st.changed.map (fun lang => (lang, (getKey st.locales lang).getD Json.null))

/-- _composeLocales as a function from the two directory snapshots to
the rewritten locale files. -/
def composeLocales (appLocales frags : List (String × Json)) :
    Except String (List (String × Json)) :=
  (composeLocalesCore appLocales frags).map localesWritten

/-- The top-level merge of run() (lines 65-68): the overlay is spread
first and the base manifest second, so on shared keys the later
spread - the base manifest - wins. -/
def appJsonMerge (composeJ base : Json) : Doc :=
  spreadFields (ownFields composeJ) (ownFields base)

/-- The five section-rebuilding steps of run(), in execution order. -/
def midSteps (fs : ComposeFS) (d : Doc) : Except String Doc := do
  let d1 ← composeFlow fs.flowTriggers fs.flowConditions fs.flowActions d
  let d2 ← composeDrivers fs.templates fs.pairViews fs.drivers d1
  let d3 := composeCapabilities fs.capabilities d2
  let d4 := composeSignals fs.signals433 fs.signals868 fs.signalsIR d3
  composeScreensavers fs.screensavers d4

/-- run(): load the base manifest (its ENOENT is not caught), default
the missing overlay to an empty object, merge them, rebuild the five
sections, merge and rewrite the locales (whose failures abort the run
before anything is saved), and save.  _saveAppJson deep-clones
through JSON.stringify/parse (the identity on these documents) and
applies removeDollarPropertiesRecursive before serializing, so the
returned document determines the byte content of the written
app.json via the fixed pretty-printer. -/
def run (fs : ComposeFS) : Except String Doc := do
  let base ←
    match fs.appJson with
    | some b => .ok b
    | none => .error "ENOENT: no such file or directory app.json"
  let composeJ := fs.appJsonCompose.getD (.obj [])
  let d5 ← midSteps fs (appJsonMerge composeJ base)
  let _ ← composeLocalesCore fs.appLocales fs.localeFragments
  .ok (stripDollarFields d5)

/-! Derived notions the theorems are stated with. -/

/-- The five manifest keys that run() rebuilds from fragments. -/
def sectKeys : List String := ["flow", "drivers", "capabilities", "signals", "screensavers"]

/-- The manifest fields that survive section rebuilding: everything
under a non-section key. -/
def nonSect (d : Doc) : Doc := d.filter (fun kv => !(sectKeys.contains kv.1))

/-- The mapping a sequence of keyed upserts builds (how
_composeCapabilities and _composeSignals populate their sections). -/
def upsertFold (f : String × Json → String) (l : List (String × Json)) : Doc :=
  l.foldl (fun acc p => setKey acc (f p) p.2) []

/-- The last fragment of the sequence that resolves to the key k, if
any.  Used to state that collisions resolve to the later-processed
fragment. -/
def lastResolved (f : String × Json → String) (l : List (String × Json)) (k : String) :
    Option Json :=
  l.foldl (fun acc p => if f p == k then some p.2 else acc) none

/-- The language a compose locale fragment file id names: the first
dot-segment. -/
def localeLang (fid : String) : String := (splitOnDot (stripJson fid)).headD ""

/-- The filesystem as the next run sees it after a successful run wrote
the canonical manifest m and the locale files written: app.json now
holds m (JSON serialization round-trips), and each written language
file replaces (or creates) its entry in the locales directory.
Nothing else the engine reads is touched by a run. -/
def fsAfterRun (fs : ComposeFS) (m : Doc) (written : List (String × Json)) : ComposeFS :=
  { fs with
    appJson := some (.obj m)
    appLocales := written.foldl (fun acc p => setKey acc p.1 p.2) fs.appLocales }

/-- Formalization of a non-conflicting locale fragment set: no two
compose locale fragments target the same language, so no fragment can
overwrite a tree another fragment merged into. -/
def NonConflictingLocales (frags : List (String × Json)) : Prop :=
  (frags.map (fun p => localeLang p.1)).Nodup

/-- The dotted subpath of a locale fragment resolves through mapping
nodes of the tree (a missing child counts as an empty mapping, as
objectPath.set would create one). -/
def pathObjects : Json → List String → Bool
  | _, [] => true
  | .obj fs, p :: ps => pathObjects ((getKey fs p).getD (.obj [])) ps
  | _, _ :: _ => false

/-! Concrete directory snapshots the witnesses evaluate the engine on. -/

/-- An empty filesystem snapshot to build the concrete examples from. -/
def emptyFS : ComposeFS :=
  { appJson := none
    appJsonCompose := none
    flowTriggers := []
    flowConditions := []
    flowActions := []
    templates := []
    pairViews := []
    drivers := []
    capabilities := []
    signals433 := []
    signals868 := []
    signalsIR := []
    screensavers := []
    appLocales := []
    localeFragments := [] }

/-- An app whose inputs carry $-keys at several nesting depths, for the
dollar-stripping witness. -/
def fsC1 : ComposeFS :=
  { emptyFS with
    appJson := some (.obj [("id", .str "app"),
      ("settings", .obj [("$hint", .str "x"),
        ("deep", .arr [.obj [("$n", .num 2), ("ok", .bool true)]])])])
    appJsonCompose := some (.obj [("$schema", .str "s")]) }

/-- An app with one driver whose compose file extends a template id
absent from the template table. -/
def fsC3 : ComposeFS :=
  { emptyFS with
    appJson := some (.obj [("id", .str "app")])
    drivers := [{ name := "mydriver"
                  compose := some (.obj [("$extends", .str "missing-template"),
                    ("class", .str "light")])
                  settings := none
                  flow := none }] }

/-- Base manifest and overlay disagreeing on a shared key. -/
def fsC7 : ComposeFS :=
  { emptyFS with
    appJson := some (.obj [("id", .str "base")])
    appJsonCompose := some (.obj [("id", .str "overlay")]) }

/-- An app directory without a base app.json. -/
def fsC8 : ComposeFS :=
  { emptyFS with appJsonCompose := some (.obj []) }

/-- A small app with an overlay and one locale fragment, for the
idempotence witness. -/
def fsC2 : ComposeFS :=
  { emptyFS with
    appJson := some (.obj [("id", .str "app"), ("$internal", .num 1)])
    appJsonCompose := some (.obj [("version", .str "1.0.0")])
    localeFragments := [("en", .obj [("hello", .str "world")])] }

/-! ## Association-list lemmas -/

theorem getKey_eq_none_iff (d : Doc) (k : String) : getKey d k = none ↔ k ∉ keys d := by
  induction d with
  | nil => simp [getKey, keys]
  | cons kv d ih =>
    simp only [keys, List.map_cons, List.mem_cons, getKey]
    by_cases h : kv.1 = k
    · simp [h]
    · have h2 : (kv.1 == k) = false := beq_eq_false_iff_ne.2 h
      rw [h2]
      simp only [Bool.false_eq_true, if_false, ih, keys]
      constructor
      · intro hn hor
        rcases hor with he | hm
        · exact h he.symm
        · exact hn hm
      · intro hn hm
        exact hn (Or.inr hm)

theorem getKey_isSome_iff (d : Doc) (k : String) : (getKey d k).isSome = true ↔ k ∈ keys d := by
  rw [Option.isSome_iff_ne_none]
  constructor
  · intro h
    by_contra hk
    exact h ((getKey_eq_none_iff d k).2 hk)
  · intro h hn
    exact ((getKey_eq_none_iff d k).1 hn) h

theorem getKey_append (a b : Doc) (k : String) :
    getKey (a ++ b) k =
      match getKey a k with
      | some v => some v
      | none => getKey b k := by
  induction a with
  | nil => simp [getKey]
  | cons kv a ih =>
    by_cases h : kv.1 = k
    · simp [getKey, h]
    · simp [getKey, h, ih]

theorem getKey_append_right (a b : Doc) (k : String) (h : k ∉ keys a) :
    getKey (a ++ b) k = getKey b k := by
  rw [getKey_append, (getKey_eq_none_iff a k).2 h]

theorem map_setKey_id (k : String) (v : Json) :
    ∀ a : Doc, k ∉ keys a → a.map (fun kv => if kv.1 == k then (k, v) else kv) = a
  | [], _ => rfl
  | kv :: a, h => by
    simp only [keys, List.map_cons, List.mem_cons, not_or] at h
    obtain ⟨h1, h2⟩ := h
    simp only [List.map_cons, beq_eq_false_iff_ne.2 (Ne.symm h1), Bool.false_eq_true,
      if_false]
    rw [map_setKey_id k v a h2]

theorem setKey_append_right (a b : Doc) (k : String) (v : Json) (h : k ∉ keys a) :
    setKey (a ++ b) k v = a ++ setKey b k v := by
  have ha : getKey a k = none := (getKey_eq_none_iff a k).2 h
  unfold setKey
  rw [getKey_append, ha]
  cases hg : getKey b k with
  | some w =>
    simp only [hg, Option.isSome_some, if_true, List.map_append]
    rw [map_setKey_id k v a h]
  | none =>
    simp only [hg, Option.isSome_none, Bool.false_eq_true, if_false, List.append_assoc]

theorem delKey_append (a b : Doc) (k : String) :
    delKey (a ++ b) k = delKey a k ++ delKey b k := by
  simp [delKey, List.filter_append]

theorem delKey_of_not_mem (a : Doc) (k : String) (h : k ∉ keys a) : delKey a k = a := by
  unfold delKey
  apply List.filter_eq_self.2
  intro kv hkv
  have : kv.1 ≠ k := by
    intro he
    exact h (he ▸ List.mem_map_of_mem Prod.fst hkv)
  simp [this]

theorem keys_map_setKeyFn (k : String) (v : Json) :
    ∀ (d : Doc) (x : String),
      x ∈ keys (d.map (fun kv => if kv.1 == k then (k, v) else kv)) →
      x ∈ keys d ∨ x = k
  | [], x, hx => by simp [keys] at hx
  | kv :: d, x, hx => by
    simp only [List.map_cons, keys, List.mem_cons] at hx
    rcases hx with h1 | h2
    · by_cases hk : kv.1 = k
      · right
        have he : ((if (kv.1 == k) = true then (k, v) else kv) : String × Json) = (k, v) := by
          simp [hk]
        rw [he] at h1
        exact h1
      · left
        have he : ((if (kv.1 == k) = true then (k, v) else kv) : String × Json) = kv := by
          simp [beq_eq_false_iff_ne.2 hk]
        rw [he] at h1
        simp [keys, h1]
    · rcases keys_map_setKeyFn k v d x h2 with h3 | h3
      · left
        simp only [keys, List.map_cons, List.mem_cons]
        right
        exact h3
      · right; exact h3

theorem keys_setKey (d : Doc) (k : String) (v : Json) :
    ∀ x ∈ keys (setKey d k v), x ∈ keys d ∨ x = k := by
  intro x hx
  unfold setKey at hx
  cases hg : getKey d k with
  | some w =>
    rw [hg] at hx
    simp only [Option.isSome_some, if_true] at hx
    exact keys_map_setKeyFn k v d x hx
  | none =>
    rw [hg] at hx
    simp only [Option.isSome_none, Bool.false_eq_true, if_false, keys,
      List.map_append, List.map_cons] at hx
    rcases List.mem_append.1 hx with h1 | h2
    · left; exact h1
    · right
      simpa using h2

theorem getKey_filter (p : String → Bool) (d : Doc) (k : String) (hp : p k = true) :
    getKey (d.filter (fun kv => p kv.1)) k = getKey d k := by
  induction d with
  | nil => simp [getKey]
  | cons kv d ih =>
    by_cases h : kv.1 = k
    · subst h
      simp [List.filter_cons, hp, getKey]
    · by_cases hpk : p kv.1
      · simp [List.filter_cons, hpk, getKey, h, ih]
      · simp [List.filter_cons, hpk, getKey, h, ih]

theorem getKey_map_value (m : Json → Json) (d : Doc) (k : String) :
    getKey (d.map (fun kv => (kv.1, m kv.2))) k = (getKey d k).map m := by
  induction d with
  | nil => simp [getKey]
  | cons kv d ih =>
    by_cases h : kv.1 = k
    · simp [getKey, h]
    · simp [getKey, h, ih]

theorem keys_filter (p : String → Bool) (d : Doc) (k : String) (hp : p k = true) :
    k ∈ keys (d.filter (fun kv => p kv.1)) ↔ k ∈ keys d := by
  constructor
  · intro h
    rw [← getKey_isSome_iff] at h ⊢
    rwa [getKey_filter p d k hp] at h
  · intro h
    rw [← getKey_isSome_iff] at h ⊢
    rwa [getKey_filter p d k hp]

theorem keys_map_value (m : Json → Json) (d : Doc) :
    keys (d.map (fun kv => (kv.1, m kv.2))) = keys d := by
  simp [keys, List.map_map, Function.comp]

theorem keys_filter_subset (p : String → Bool) (d : Doc) :
    ∀ x ∈ keys (d.filter (fun kv => p kv.1)), x ∈ keys d := by
  intro x hx
  obtain ⟨kv, hkv, he⟩ := List.mem_map.1 hx
  exact he ▸ List.mem_map_of_mem Prod.fst (List.mem_of_mem_filter hkv)

theorem filter_key_map_value (q : String → Bool) (m : Json → Json) (d : Doc) :
    (d.map (fun kv => (kv.1, m kv.2))).filter (fun kv => q kv.1) =
      (d.filter (fun kv => q kv.1)).map (fun kv => (kv.1, m kv.2)) := by
  induction d with
  | nil => rfl
  | cons kv d ih =>
    by_cases h : q kv.1
    · simp [List.filter_cons, h, ih]
    · simp [List.filter_cons, h, ih]

/-! ## Dollar-stripping lemmas -/

theorem stripDollarFields_eq (d : Doc) :
    stripDollarFields d =
      (d.filter (fun kv => !(strStartsWith kv.1 "$"))).map
        (fun kv => (kv.1, removeDollarPropertiesRecursive kv.2)) := by
  induction d with
  | nil => rfl
  | cons kv d ih =>
    obtain ⟨k, v⟩ := kv
    by_cases h : strStartsWith k "$"
    · simp [stripDollarFields, h, List.filter_cons, ih]
    · simp [stripDollarFields, h, List.filter_cons, ih]

theorem stripDollarFields_append (a b : Doc) :
    stripDollarFields (a ++ b) = stripDollarFields a ++ stripDollarFields b := by
  simp [stripDollarFields_eq, List.filter_append]

mutual

theorem noDollar_strip : ∀ j, noDollarKeys (removeDollarPropertiesRecursive j) = true
  | .null => rfl
  | .bool _ => rfl
  | .num _ => rfl
  | .str _ => rfl
  | .arr xs => by
    simp only [removeDollarPropertiesRecursive, noDollarKeys]
    exact noDollar_stripList xs
  | .obj fs => by
    simp only [removeDollarPropertiesRecursive, noDollarKeys]
    exact noDollar_stripFields fs

theorem noDollar_stripList : ∀ xs, noDollarKeysList (stripDollarList xs) = true
  | [] => rfl
  | x :: xs => by
    simp only [stripDollarList, noDollarKeysList, Bool.and_eq_true]
    exact ⟨noDollar_strip x, noDollar_stripList xs⟩

theorem noDollar_stripFields : ∀ fs, noDollarKeysFields (stripDollarFields fs) = true
  | [] => rfl
  | (k, v) :: fs => by
    by_cases h : strStartsWith k "$"
    · simp only [stripDollarFields, h, if_true]
      exact noDollar_stripFields fs
    · simp only [stripDollarFields, h, Bool.false_eq_true, if_false, noDollarKeysFields,
        Bool.and_eq_true, Bool.not_eq_eq_eq_not, Bool.not_true]
      exact ⟨⟨by simp [h], noDollar_strip v⟩, noDollar_stripFields fs⟩

end

mutual

theorem strip_idem : ∀ j,
    removeDollarPropertiesRecursive (removeDollarPropertiesRecursive j) =
      removeDollarPropertiesRecursive j
  | .null => rfl
  | .bool _ => rfl
  | .num _ => rfl
  | .str _ => rfl
  | .arr xs => by
    simp only [removeDollarPropertiesRecursive]
    rw [stripList_idem xs]
  | .obj fs => by
    simp only [removeDollarPropertiesRecursive]
    rw [stripFields_idem fs]

theorem stripList_idem : ∀ xs, stripDollarList (stripDollarList xs) = stripDollarList xs
  | [] => rfl
  | x :: xs => by
    simp only [stripDollarList]
    rw [strip_idem x, stripList_idem xs]

theorem stripFields_idem : ∀ fs,
    stripDollarFields (stripDollarFields fs) = stripDollarFields fs
  | [] => rfl
  | (k, v) :: fs => by
    by_cases h : strStartsWith k "$"
    · simp only [stripDollarFields, h, if_true]
      exact stripFields_idem fs
    · simp only [stripDollarFields, h, Bool.false_eq_true, if_false]
      rw [strip_idem v, stripFields_idem fs]

end

theorem getKey_strip (b : Doc) (k : String) (hk : strStartsWith k "$" = false) :
    getKey (stripDollarFields b) k = (getKey b k).map removeDollarPropertiesRecursive := by
  rw [stripDollarFields_eq, getKey_map_value,
    getKey_filter (fun s => !(strStartsWith s "$")) b k (by simp [hk])]

theorem keys_strip_iff (b : Doc) (k : String) (hk : strStartsWith k "$" = false) :
    k ∈ keys (stripDollarFields b) ↔ k ∈ keys b := by
  rw [stripDollarFields_eq, keys_map_value,
    keys_filter (fun s => !(strStartsWith s "$")) b k (by simp [hk])]

theorem keys_strip_subset (b : Doc) :
    ∀ x ∈ keys (stripDollarFields b), x ∈ keys b := by
  intro x hx
  rw [stripDollarFields_eq, keys_map_value] at hx
  exact keys_filter_subset (fun s => !(strStartsWith s "$")) b x hx

/-! ## Section-key scrubbing lemmas -/

theorem nonSect_append (a b : Doc) : nonSect (a ++ b) = nonSect a ++ nonSect b := by
  simp [nonSect, List.filter_append]

theorem nonSect_eq_nil (E : Doc) (h : ∀ kv ∈ E, kv.1 ∈ sectKeys) : nonSect E = [] := by
  unfold nonSect
  rw [List.filter_eq_nil_iff]
  intro kv hkv
  simp
  exact h kv hkv

theorem nonSect_idem (d : Doc) : nonSect (nonSect d) = nonSect d := by
  simp [nonSect, List.filter_filter]

theorem nonSect_strip_comm (d : Doc) :
    nonSect (stripDollarFields d) = stripDollarFields (nonSect d) := by
  induction d with
  | nil => rfl
  | cons kv d ih =>
    obtain ⟨k, v⟩ := kv
    by_cases h1 : strStartsWith k "$" <;> by_cases h2 : k ∈ sectKeys <;>
      simp [stripDollarFields, nonSect, List.filter_cons, h1, h2] at ih ⊢ <;>
      exact ih

/-! ## Spread lemmas -/

theorem keys_map_override (b : Doc) (a : Doc) :
    keys (a.map (fun kv =>
      match getKey b kv.1 with
      | some v => (kv.1, v)
      | none => kv)) = keys a := by
  induction a with
  | nil => rfl
  | cons kv a ih =>
    cases hg : getKey b kv.1 <;> simp [keys, hg] at ih ⊢ <;> exact ih

theorem getKey_map_override (b : Doc) :
    ∀ (a : Doc) (k : String), k ∈ keys a →
      getKey (a.map (fun kv =>
        match getKey b kv.1 with
        | some v => (kv.1, v)
        | none => kv)) k =
      match getKey b k with
      | some v => some v
      | none => getKey a k
  | [], k, h => by simp [keys] at h
  | kv :: a, k, h => by
    by_cases hk : kv.1 = k
    · subst hk
      cases hg : getKey b kv.1 with
      | some v => simp [getKey, hg]
      | none => simp [getKey, hg]
    · have hmem : k ∈ keys a := by
        simp only [keys, List.map_cons, List.mem_cons] at h
        rcases h with h | h
        · exact absurd h.symm hk
        · exact h
      have hne : (kv.1 == k) = false := beq_eq_false_iff_ne.2 hk
      cases hg : getKey b kv.1 with
      | some v =>
        simp only [List.map_cons, hg, getKey, hne, Bool.false_eq_true, if_false]
        exact getKey_map_override b a k hmem
      | none =>
        simp only [List.map_cons, hg, getKey, hne, Bool.false_eq_true, if_false]
        exact getKey_map_override b a k hmem

theorem getKey_spread_not_mem (a b : Doc) (k : String) (h : k ∉ keys a) :
    getKey (spreadFields a b) k = getKey b k := by
  unfold spreadFields
  rw [getKey_append]
  have ha : getKey (a.map (fun kv =>
      match getKey b kv.1 with
      | some v => (kv.1, v)
      | none => kv)) k = none := by
    rw [getKey_eq_none_iff, keys_map_override]
    exact h
  rw [ha]
  exact getKey_filter (fun s => (getKey a s).isNone) b k
    (by simp [(getKey_eq_none_iff a k).2 h])

theorem getKey_spread_mem (a b : Doc) (k : String) (h : k ∈ keys a) :
    getKey (spreadFields a b) k =
      match getKey b k with
      | some v => some v
      | none => getKey a k := by
  unfold spreadFields
  rw [getKey_append, getKey_map_override b a k h]
  cases hg : getKey b k with
  | some v => rfl
  | none =>
    cases hga : getKey a k with
    | some w => rfl
    | none => exact absurd ((getKey_eq_none_iff a k).1 hga) (fun hn => hn h)

theorem getKey_of_mem_nodup (a : Doc) (kv : String × Json) (ha : (keys a).Nodup)
    (hm : kv ∈ a) : getKey a kv.1 = some kv.2 := by
  induction a with
  | nil => simp at hm
  | cons kw a ih =>
    rcases List.mem_cons.1 hm with he | hm2
    · subst he
      simp [getKey]
    · have hne : kw.1 ≠ kv.1 := by
        intro he
        have : kv.1 ∈ keys a := List.mem_map_of_mem Prod.fst hm2
        rw [← he] at this
        exact (List.nodup_cons.1 ha).1 this
      simp only [getKey, beq_eq_false_iff_ne.2 hne, Bool.false_eq_true, if_false]
      exact ih (List.nodup_cons.1 ha).2 hm2

theorem spread_absorb (a b : Doc) (ha : (keys a).Nodup) :
    spreadFields a (spreadFields a b) = spreadFields a b := by
  have hpart1 : ∀ kv ∈ a,
      (match getKey (spreadFields a b) kv.1 with
       | some v => (kv.1, v)
       | none => kv) =
      (match getKey b kv.1 with
       | some v => (kv.1, v)
       | none => kv) := by
    intro kv hkv
    have hmem : kv.1 ∈ keys a := List.mem_map_of_mem Prod.fst hkv
    rw [getKey_spread_mem a b kv.1 hmem]
    cases hg : getKey b kv.1 with
    | some v => rfl
    | none =>
      rw [getKey_of_mem_nodup a kv ha hkv]
  have hpart2 : (spreadFields a b).filter (fun kv => (getKey a kv.1).isNone) =
      b.filter (fun kv => (getKey a kv.1).isNone) := by
    unfold spreadFields
    rw [List.filter_append]
    have h1 : (a.map (fun kv =>
        match getKey b kv.1 with
        | some v => (kv.1, v)
        | none => kv)).filter (fun kv => (getKey a kv.1).isNone) = [] := by
      rw [List.filter_eq_nil_iff]
      intro kv hkv
      obtain ⟨kw, hkw, he⟩ := List.mem_map.1 hkv
      have hkey : kv.1 = kw.1 := by
        rw [← he]
        cases getKey b kw.1 <;> rfl
      have : (getKey a kv.1).isSome = true := by
        rw [getKey_isSome_iff, hkey]
        exact List.mem_map_of_mem Prod.fst hkw
      simp [Option.isNone_iff_eq_none]
      intro hn
      rw [hn] at this
      simp at this
    rw [h1, List.nil_append, List.filter_filter]
    apply List.filter_congr
    intro kv _
    exact Bool.and_self _
  calc spreadFields a (spreadFields a b)
      = a.map (fun kv =>
          match getKey (spreadFields a b) kv.1 with
          | some v => (kv.1, v)
          | none => kv)
        ++ (spreadFields a b).filter (fun kv => (getKey a kv.1).isNone) := rfl
    _ = a.map (fun kv =>
          match getKey b kv.1 with
          | some v => (kv.1, v)
          | none => kv)
        ++ b.filter (fun kv => (getKey a kv.1).isNone) := by
          rw [hpart2, List.map_congr_left hpart1]
    _ = spreadFields a b := rfl

theorem filter_map_override (p : String → Bool) (b : Doc) :
    ∀ a : Doc,
      (a.map (fun kv =>
        match getKey b kv.1 with
        | some v => (kv.1, v)
        | none => kv)).filter (fun kv => p kv.1) =
      (a.filter (fun kv => p kv.1)).map (fun kv =>
        match getKey (b.filter (fun kv2 => p kv2.1)) kv.1 with
        | some v => (kv.1, v)
        | none => kv)
  | [] => rfl
  | kv :: a => by
    have ih := filter_map_override p b a
    by_cases hp : p kv.1
    · have hg2 : getKey (b.filter (fun kv2 => p kv2.1)) kv.1 = getKey b kv.1 :=
        getKey_filter p b kv.1 hp
      cases hg : getKey b kv.1 with
      | some v =>
        simp only [List.map_cons, List.filter_cons, hg, hg2, hp, if_true, ih]
      | none =>
        simp only [List.map_cons, List.filter_cons, hg, hg2, hp, if_true, ih]
    · have hp2 : p kv.1 = false := by
        cases hpc : p kv.1
        · rfl
        · exact absurd hpc hp
      cases hg : getKey b kv.1 with
      | some v =>
        simp only [List.map_cons, List.filter_cons, hg, hp2, Bool.false_eq_true, if_false, ih]
      | none =>
        simp only [List.map_cons, List.filter_cons, hg, hp2, Bool.false_eq_true, if_false, ih]

theorem filter_filter_gpred (p : String → Bool) (a : Doc) :
    ∀ b : Doc,
      (b.filter (fun kv => (getKey a kv.1).isNone)).filter (fun kv => p kv.1) =
      (b.filter (fun kv => p kv.1)).filter
        (fun kv => (getKey (a.filter (fun kv2 => p kv2.1)) kv.1).isNone)
  | [] => rfl
  | kv :: b => by
    have ih := filter_filter_gpred p a b
    by_cases hp : p kv.1
    · have hk : getKey (a.filter (fun kv2 => p kv2.1)) kv.1 = getKey a kv.1 :=
        getKey_filter p a kv.1 hp
      cases hg : getKey a kv.1 with
      | some v => simp only [List.filter_cons, hp, hg, hk, Option.isNone_some,
          Bool.false_eq_true, if_false, if_true, ih]
      | none => simp only [List.filter_cons, hp, hg, hk, Option.isNone_none,
          if_true, ih]
    · have hp2 : p kv.1 = false := by
        cases hpc : p kv.1
        · rfl
        · exact absurd hpc hp
      cases hg : getKey a kv.1 with
      | some v => simp only [List.filter_cons, hp2, hg, Option.isNone_some,
          Bool.false_eq_true, if_false, ih]
      | none => simp only [List.filter_cons, hp2, hg, Option.isNone_none,
          Bool.false_eq_true, if_false, if_true, ih]

theorem filter_spread (p : String → Bool) (a b : Doc) :
    (spreadFields a b).filter (fun kv => p kv.1) =
      spreadFields (a.filter (fun kv => p kv.1)) (b.filter (fun kv => p kv.1)) := by
  unfold spreadFields
  rw [List.filter_append, filter_map_override p b a, filter_filter_gpred p a b]

theorem map_map_override (m : Json → Json) (b : Doc) :
    ∀ a : Doc,
      (a.map (fun kv =>
        match getKey b kv.1 with
        | some v => (kv.1, v)
        | none => kv)).map (fun kv => (kv.1, m kv.2)) =
      (a.map (fun kv => (kv.1, m kv.2))).map (fun kv =>
        match getKey (b.map (fun kv2 => (kv2.1, m kv2.2))) kv.1 with
        | some v => (kv.1, v)
        | none => kv)
  | [] => rfl
  | kv :: a => by
    have ih := map_map_override m b a
    have hb : getKey (b.map (fun kv2 => (kv2.1, m kv2.2))) kv.1 = (getKey b kv.1).map m :=
      getKey_map_value m b kv.1
    cases hg : getKey b kv.1 with
    | some v => simp only [List.map_cons, hg, hb, Option.map_some', ih]
    | none => simp only [List.map_cons, hg, hb, Option.map_none', ih]

theorem map_filter_gpred (m : Json → Json) (a : Doc) :
    ∀ b : Doc,
      (b.filter (fun kv => (getKey a kv.1).isNone)).map (fun kv => (kv.1, m kv.2)) =
      (b.map (fun kv => (kv.1, m kv.2))).filter
        (fun kv => (getKey (a.map (fun kv2 => (kv2.1, m kv2.2))) kv.1).isNone)
  | [] => rfl
  | kv :: b => by
    have ih := map_filter_gpred m a b
    have hb : getKey (a.map (fun kv2 => (kv2.1, m kv2.2))) kv.1 = (getKey a kv.1).map m :=
      getKey_map_value m a kv.1
    cases hg : getKey a kv.1 with
    | some v => simp only [List.filter_cons, List.map_cons, hg, hb, Option.map_some',
        Option.isNone_some, Bool.false_eq_true, if_false, ih]
    | none => simp only [List.filter_cons, List.map_cons, hg, hb, Option.map_none',
        Option.isNone_none, if_true, ih]

theorem map_value_spread (m : Json → Json) (a b : Doc) :
    (spreadFields a b).map (fun kv => (kv.1, m kv.2)) =
      spreadFields (a.map (fun kv => (kv.1, m kv.2))) (b.map (fun kv => (kv.1, m kv.2))) := by
  unfold spreadFields
  rw [List.map_append, map_map_override m b a, map_filter_gpred m a b]

theorem strip_spread (a b : Doc) :
    stripDollarFields (spreadFields a b) =
      spreadFields (stripDollarFields a) (stripDollarFields b) := by
  rw [stripDollarFields_eq, filter_spread (fun s => !(strStartsWith s "$")) a b,
    map_value_spread, ← stripDollarFields_eq, ← stripDollarFields_eq]

theorem nonSect_spread (a b : Doc) :
    nonSect (spreadFields a b) = spreadFields (nonSect a) (nonSect b) := by
  unfold nonSect
  exact filter_spread (fun s => !(sectKeys.contains s)) a b

/-! ## Factorization of the section-rebuilding steps

Each compose step only reads and writes its own section keys, so a
manifest that is a core (holding no section keys the step touches)
followed by a section part P is transformed by leaving the core alone
and transforming P.  Starting from the empty document this peels the
incoming manifest off the rebuilt sections. -/

theorem foldlM_split (core : Doc) (f : Doc → α → Except String Doc)
    (hf : ∀ (P : Doc) (x : α), f (core ++ P) x = (f P x).map (fun r => core ++ r)) :
    ∀ (l : List α) (P : Doc),
      l.foldlM f (core ++ P) = (l.foldlM f P).map (fun r => core ++ r)
  | [], P => rfl
  | x :: l, P => by
    rw [List.foldlM_cons, List.foldlM_cons, hf P x]
    cases hr : f P x with
    | error e => rfl
    | ok P2 =>
      show List.foldlM f (core ++ P2) l = (List.foldlM f P2 l).map (fun r => core ++ r)
      exact foldlM_split core f hf l P2

theorem foldl_split (core : Doc) (f : Doc → α → Doc)
    (hf : ∀ P x, f (core ++ P) x = core ++ f P x) :
    ∀ (l : List α) (P : Doc), l.foldl f (core ++ P) = core ++ l.foldl f P
  | [], _ => rfl
  | x :: l, P => by
    rw [List.foldl_cons, List.foldl_cons, hf P x]
    exact foldl_split core f hf l (f P x)

theorem foldlM_preserve (f : Doc → α → Except String Doc) (Q : Doc → Prop)
    (hf : ∀ P x r, Q P → f P x = .ok r → Q r) :
    ∀ (l : List α) (P r : Doc), Q P → l.foldlM f P = .ok r → Q r
  | [], P, r, hQ, h => by
    cases h
    exact hQ
  | x :: l, P, r, hQ, h => by
    rw [List.foldlM_cons] at h
    cases hr : f P x with
    | error e =>
      rw [hr] at h
      exact Except.noConfusion h
    | ok P2 =>
      rw [hr] at h
      exact foldlM_preserve f Q hf l P2 r (hf P x P2 hQ hr) h

theorem foldl_preserve (f : Doc → α → Doc) (Q : Doc → Prop)
    (hf : ∀ P x, Q P → Q (f P x)) :
    ∀ (l : List α) (P : Doc), Q P → Q (l.foldl f P)
  | [], _, hQ => hQ
  | x :: l, P, hQ => by
    rw [List.foldl_cons]
    exact foldl_preserve f Q hf l (f P x) (hf P x hQ)

theorem ok_bind (a : α) (f : α → Except String β) : (Except.ok a >>= f) = f a := rfl

theorem error_bind (e : String) (f : α → Except String β) :
    ((Except.error e : Except String α) >>= f) = Except.error e := rfl

theorem not_mem_keys_delKey (d : Doc) (k : String) : k ∉ keys (delKey d k) := by
  intro h
  obtain ⟨kv, hkv, he⟩ := List.mem_map.1 h
  have := List.of_mem_filter hkv
  rw [he] at this
  simp at this

theorem keys_delKey_subset (d : Doc) (k : String) :
    ∀ x ∈ keys (delKey d k), x ∈ keys d := by
  intro x hx
  obtain ⟨kv, hkv, he⟩ := List.mem_map.1 hx
  exact he ▸ List.mem_map_of_mem Prod.fst (List.mem_of_mem_filter hkv)

theorem pushFlowCard_split (core P : Doc) (ty : String) (c : Json)
    (h : "flow" ∉ keys core) :
    pushFlowCard (core ++ P) ty c = (pushFlowCard P ty c).map (fun r => core ++ r) := by
  unfold pushFlowCard
  dsimp only
  rw [getKey_append_right core P "flow" h]
  generalize (match getKey P "flow" with
    | some v => if truthy v then v else Json.obj []
    | none => Json.obj []) = flowV
  cases flowV with
  | obj flowFs =>
    dsimp only
    generalize (match getKey flowFs ty with
      | some v => if truthy v then v else Json.arr []
      | none => Json.arr []) = tyV
    cases tyV with
    | arr cs =>
      show Except.ok (setKey (core ++ P) "flow" _) = _
      rw [setKey_append_right core P "flow" _ h]
      rfl
    | null => rfl
    | bool b => rfl
    | num n => rfl
    | str s => rfl
    | obj fs => rfl
  | arr xs => rfl
  | null => rfl
  | bool b => rfl
  | num n => rfl
  | str s => rfl

theorem addFlowCard_split (core P : Doc) (ty : String) (card : Json) (fb : Option String)
    (h : "flow" ∉ keys core) :
    addFlowCard (core ++ P) ty card fb = (addFlowCard P ty card fb).map (fun r => core ++ r) := by
  unfold addFlowCard
  cases hr : resolveCardId card fb with
  | error e => rfl
  | ok c2 =>
    show pushFlowCard (core ++ P) ty c2 = (pushFlowCard P ty c2).map (fun r => core ++ r)
    exact pushFlowCard_split core P ty c2 h

theorem addFlowCards_split (core : Doc) (ty : String) (cards : List (String × Json))
    (P : Doc) (h : "flow" ∉ keys core) :
    addFlowCards (core ++ P) ty cards = (addFlowCards P ty cards).map (fun r => core ++ r) := by
  unfold addFlowCards
  exact foldlM_split core _ (fun P2 p => addFlowCard_split core P2 ty p.2 (some (stripJson p.1)) h)
    cards P

theorem composeFlow_split (tr c a : List (String × Json)) (d : Doc) :
    composeFlow tr c a d = (composeFlow tr c a []).map (fun E => delKey d "flow" ++ E) := by
  have hcore : "flow" ∉ keys (delKey d "flow") := not_mem_keys_delKey d "flow"
  unfold composeFlow
  have h0 : delKey ([] : Doc) "flow" = [] := rfl
  rw [h0]
  have h1 := addFlowCards_split (delKey d "flow") "triggers" tr [] hcore
  rw [List.append_nil] at h1
  rw [h1]
  cases hr1 : addFlowCards [] "triggers" tr with
  | error e => rfl
  | ok E1 =>
    show (do
      let d2 ← addFlowCards (delKey d "flow" ++ E1) "conditions" c
      addFlowCards d2 "actions" a) = _
    rw [addFlowCards_split (delKey d "flow") "conditions" c E1 hcore]
    cases hr2 : addFlowCards E1 "conditions" c with
    | error e =>
      show (Except.error e : Except String Doc) =
        Except.map (fun E => delKey d "flow" ++ E)
          (addFlowCards E1 "conditions" c >>= fun d2 => addFlowCards d2 "actions" a)
      rw [hr2]
      rfl
    | ok E2 =>
      show addFlowCards (delKey d "flow" ++ E2) "actions" a =
        Except.map (fun E => delKey d "flow" ++ E)
          (addFlowCards E1 "conditions" c >>= fun d2 => addFlowCards d2 "actions" a)
      rw [addFlowCards_split (delKey d "flow") "actions" a E2 hcore, hr2]
      rfl

theorem composeDriverFlow_split (n : String) (fj : Json) (core P : Doc)
    (h : "flow" ∉ keys core) :
    composeDriverFlow n fj (core ++ P) =
      (composeDriverFlow n fj P).map (fun r => core ++ r) := by
  unfold composeDriverFlow
  refine foldlM_split core _ (fun P2 ty => ?_) _ P
  cases hty : getTruthy fj ty with
  | none => rfl
  | some cards =>
    cases cards with
    | arr cs =>
      refine foldlM_split core _ (fun P3 c => ?_) cs P2
      cases hc : composeDriverCard n c with
      | error e => rfl
      | ok c2 =>
        show addFlowCard (core ++ P3) ty c2 none = (addFlowCard P3 ty c2 none).map _
        exact addFlowCard_split core P3 ty c2 none h
    | null => rfl
    | bool b => rfl
    | num m => rfl
    | str s => rfl
    | obj fs => rfl

theorem pushDriver_split (core P : Doc) (dj : Json) (h : "drivers" ∉ keys core) :
    pushDriver (core ++ P) dj = (pushDriver P dj).map (fun r => core ++ r) := by
  unfold pushDriver
  dsimp only
  rw [getKey_append_right core P "drivers" h]
  generalize (match getKey P "drivers" with
    | some v => if truthy v then v else Json.arr []
    | none => Json.arr []) = driversV
  cases driversV with
  | arr ds =>
    show Except.ok (setKey (core ++ P) "drivers" _) = _
    rw [setKey_append_right core P "drivers" _ h]
    rfl
  | null => rfl
  | bool b => rfl
  | num n => rfl
  | str s => rfl
  | obj fs => rfl

theorem driverStep_split (t : List (String × Json)) (pv : List String) (core P : Doc)
    (e : DriverEntry) (hfl : "flow" ∉ keys core) (hdr : "drivers" ∉ keys core) :
    driverStep t pv (core ++ P) e = (driverStep t pv P e).map (fun r => core ++ r) := by
  unfold driverStep
  by_cases hn : strStartsWith e.name "."
  · rw [if_pos hn, if_pos hn]
    rfl
  · rw [if_neg hn, if_neg hn]
    cases hr : resolveDriverJson t pv e with
    | error er => rfl
    | ok dj =>
      cases hfjo : e.flow with
      | none =>
        show pushDriver (core ++ P) dj = (pushDriver P dj).map _
        exact pushDriver_split core P dj hdr
      | some fj =>
        show (composeDriverFlow e.name fj (core ++ P) >>= fun d2 => pushDriver d2 dj) =
          Except.map (fun r => core ++ r)
            (composeDriverFlow e.name fj P >>= fun d2 => pushDriver d2 dj)
        rw [composeDriverFlow_split e.name fj core P hfl]
        cases hr2 : composeDriverFlow e.name fj P with
        | error er => rfl
        | ok D2 =>
          show pushDriver (core ++ D2) dj =
            Except.map (fun r => core ++ r) (pushDriver D2 dj)
          exact pushDriver_split core D2 dj hdr

theorem composeDrivers_split (t : List (String × Json)) (pv : List String)
    (drs : List DriverEntry) (core P : Doc) (hfl : "flow" ∉ keys core) :
    composeDrivers t pv drs (core ++ P) =
      (composeDrivers t pv drs P).map (fun r => delKey core "drivers" ++ r) := by
  unfold composeDrivers
  rw [delKey_append]
  have hfl2 : "flow" ∉ keys (delKey core "drivers") := by
    intro hm
    exact hfl (keys_delKey_subset core "drivers" _ hm)
  have hdr2 : "drivers" ∉ keys (delKey core "drivers") := not_mem_keys_delKey core "drivers"
  exact foldlM_split (delKey core "drivers") _
    (fun P2 e => driverStep_split t pv (delKey core "drivers") P2 e hfl2 hdr2) drs
    (delKey P "drivers")

theorem composeCapabilities_split (caps : List (String × Json)) (core P : Doc) :
    composeCapabilities caps (core ++ P) =
      delKey core "capabilities" ++ composeCapabilities caps P := by
  unfold composeCapabilities
  rw [delKey_append]
  have hc : "capabilities" ∉ keys (delKey core "capabilities") :=
    not_mem_keys_delKey core "capabilities"
  refine foldl_split (delKey core "capabilities") _ (fun P2 p => ?_) caps
    (delKey P "capabilities")
  unfold capabilityStep
  dsimp only
  rw [getKey_append_right _ P2 "capabilities" hc]
  generalize (match getKey P2 "capabilities" with
    | some v => if truthy v then v else Json.obj []
    | none => Json.obj []) = capsV
  cases capsV with
  | obj cs => exact setKey_append_right _ P2 "capabilities" _ hc
  | arr xs => rfl
  | null => rfl
  | bool b => rfl
  | num n => rfl
  | str s => rfl

theorem addSignals_split (freq : String) (sigs : List (String × Json)) (core P : Doc)
    (h : "signals" ∉ keys core) :
    addSignals freq sigs (core ++ P) = core ++ addSignals freq sigs P := by
  unfold addSignals
  refine foldl_split core _ (fun P2 p => ?_) sigs P
  unfold signalStep
  dsimp only
  rw [getKey_append_right core P2 "signals" h]
  generalize (match getKey P2 "signals" with
    | some v => if truthy v then v else Json.obj []
    | none => Json.obj []) = sigsV
  cases sigsV with
  | obj ss =>
    dsimp only
    generalize (match getKey ss freq with
      | some v => if truthy v then v else Json.obj []
      | none => Json.obj []) = freqV
    cases freqV with
    | obj fsigs => exact setKey_append_right core P2 "signals" _ h
    | arr xs => rfl
    | null => rfl
    | bool b => rfl
    | num n => rfl
    | str s => rfl
  | arr xs => rfl
  | null => rfl
  | bool b => rfl
  | num n => rfl
  | str s => rfl

theorem composeSignals_split (s433 s868 sIR : List (String × Json)) (core P : Doc) :
    composeSignals s433 s868 sIR (core ++ P) =
      delKey core "signals" ++ composeSignals s433 s868 sIR P := by
  unfold composeSignals
  have hs : "signals" ∉ keys (delKey core "signals") := not_mem_keys_delKey core "signals"
  rw [delKey_append, addSignals_split "433" s433 _ _ hs, addSignals_split "868" s868 _ _ hs,
    addSignals_split "ir" sIR _ _ hs]

theorem composeScreensavers_split (scrs : List (String × Json)) (core P : Doc) :
    composeScreensavers scrs (core ++ P) =
      (composeScreensavers scrs P).map (fun r => delKey core "screensavers" ++ r) := by
  unfold composeScreensavers
  rw [delKey_append]
  have hs : "screensavers" ∉ keys (delKey core "screensavers") :=
    not_mem_keys_delKey core "screensavers"
  refine foldlM_split (delKey core "screensavers") _ (fun P2 p => ?_) scrs
    (delKey P "screensavers")
  dsimp only
  cases hj : jsSetProp p.2 "name"
      (match getTruthy p.2 "$name" with
       | some v => v
       | none =>
         match getTruthy p.2 "name" with
         | some v => v
         | none => Json.str p.1) with
  | error e => rfl
  | ok scr =>
    show (match
        (match getKey (delKey core "screensavers" ++ P2) "screensavers" with
         | some v => if truthy v then v else Json.arr []
         | none => Json.arr []) with
      | Json.arr xs =>
        Except.ok (setKey (delKey core "screensavers" ++ P2) "screensavers"
          (Json.arr (xs ++ [scr])))
      | _ => Except.error "TypeError: push is not a function") = _
    rw [getKey_append_right _ P2 "screensavers" hs]
    generalize (match getKey P2 "screensavers" with
      | some v => if truthy v then v else Json.arr []
      | none => Json.arr []) = listV
    cases listV with
    | arr xs =>
      show Except.ok (setKey (delKey core "screensavers" ++ P2) "screensavers" _) = _
      rw [setKey_append_right _ P2 "screensavers" _ hs]
      rfl
    | null => rfl
    | bool b => rfl
    | num n => rfl
    | str s => rfl
    | obj fs => rfl

theorem delKey_chain (d : Doc) :
    delKey (delKey (delKey (delKey (delKey d "flow") "drivers") "capabilities") "signals")
      "screensavers" = nonSect d := by
  unfold delKey nonSect
  rw [List.filter_filter, List.filter_filter, List.filter_filter, List.filter_filter]
  apply List.filter_congr
  intro kv _
  cases h1 : kv.1 == "flow" <;> cases h2 : kv.1 == "drivers" <;>
    cases h3 : kv.1 == "capabilities" <;> cases h4 : kv.1 == "signals" <;>
    cases h5 : kv.1 == "screensavers" <;>
    simp [sectKeys, bne, h1, h2, h3, h4, h5, List.contains, List.elem]

/-! ## The rebuilt sections only occupy section keys -/

theorem sect_mem_setKey (d : Doc) (k : String) (v : Json)
    (hd : ∀ kv ∈ d, kv.1 ∈ sectKeys) (hk : k ∈ sectKeys) :
    ∀ kv ∈ setKey d k v, kv.1 ∈ sectKeys := by
  intro kv hkv
  rcases keys_setKey d k v kv.1 (List.mem_map_of_mem Prod.fst hkv) with h | h
  · obtain ⟨kw, hkw, he⟩ := List.mem_map.1 h
    exact he ▸ hd kw hkw
  · exact h ▸ hk

theorem sect_mem_delKey (d : Doc) (k : String)
    (hd : ∀ kv ∈ d, kv.1 ∈ sectKeys) :
    ∀ kv ∈ delKey d k, kv.1 ∈ sectKeys :=
  fun kv hkv => hd kv (List.mem_of_mem_filter hkv)

theorem pushFlowCard_sect (d : Doc) (ty : String) (c : Json) (r : Doc)
    (hd : ∀ kv ∈ d, kv.1 ∈ sectKeys) (h : pushFlowCard d ty c = .ok r) :
    ∀ kv ∈ r, kv.1 ∈ sectKeys := by
  unfold pushFlowCard at h
  dsimp only at h
  generalize (match getKey d "flow" with
    | some v => if truthy v then v else Json.obj []
    | none => Json.obj []) = flowV at h
  cases flowV with
  | obj flowFs =>
    dsimp only at h
    generalize (match getKey flowFs ty with
      | some v => if truthy v then v else Json.arr []
      | none => Json.arr []) = tyV at h
    cases tyV with
    | arr cs =>
      cases h
      exact sect_mem_setKey d "flow" _ hd (by simp [sectKeys])
    | null => exact Except.noConfusion h
    | bool b => exact Except.noConfusion h
    | num n => exact Except.noConfusion h
    | str s => exact Except.noConfusion h
    | obj fs => exact Except.noConfusion h
  | arr xs =>
    cases h
    exact hd
  | null => exact Except.noConfusion h
  | bool b => exact Except.noConfusion h
  | num n => exact Except.noConfusion h
  | str s => exact Except.noConfusion h

theorem addFlowCard_sect (d : Doc) (ty : String) (card : Json) (fb : Option String) (r : Doc)
    (hd : ∀ kv ∈ d, kv.1 ∈ sectKeys) (h : addFlowCard d ty card fb = .ok r) :
    ∀ kv ∈ r, kv.1 ∈ sectKeys := by
  unfold addFlowCard at h
  cases hc : resolveCardId card fb with
  | error e =>
    rw [hc] at h
    exact Except.noConfusion h
  | ok c2 =>
    rw [hc] at h
    exact pushFlowCard_sect d ty c2 r hd h

theorem addFlowCards_sect (ty : String) (cards : List (String × Json)) (P r : Doc)
    (hP : ∀ kv ∈ P, kv.1 ∈ sectKeys) (h : addFlowCards P ty cards = .ok r) :
    ∀ kv ∈ r, kv.1 ∈ sectKeys := by
  unfold addFlowCards at h
  exact foldlM_preserve _ (fun D => ∀ kv ∈ D, kv.1 ∈ sectKeys)
    (fun P2 p r2 hQ2 h2 => addFlowCard_sect P2 ty p.2 (some (stripJson p.1)) r2 hQ2 h2)
    cards P r hP h

theorem composeFlow_sect (tr c a : List (String × Json)) (P r : Doc)
    (hP : ∀ kv ∈ P, kv.1 ∈ sectKeys) (h : composeFlow tr c a P = .ok r) :
    ∀ kv ∈ r, kv.1 ∈ sectKeys := by
  unfold composeFlow at h
  cases h1 : addFlowCards (delKey P "flow") "triggers" tr with
  | error e => rw [h1] at h; exact Except.noConfusion h
  | ok E1 =>
    rw [h1] at h
    simp only [ok_bind] at h
    cases h2 : addFlowCards E1 "conditions" c with
    | error e =>
      rw [h2] at h
      simp only [error_bind] at h
      exact Except.noConfusion h
    | ok E2 =>
      rw [h2] at h
      simp only [ok_bind] at h
      have hQ1 := addFlowCards_sect "triggers" tr (delKey P "flow") E1
        (sect_mem_delKey P "flow" hP) h1
      have hQ2 := addFlowCards_sect "conditions" c E1 E2 hQ1 h2
      exact addFlowCards_sect "actions" a E2 r hQ2 h

theorem pushDriver_sect (d : Doc) (dj : Json) (r : Doc)
    (hd : ∀ kv ∈ d, kv.1 ∈ sectKeys) (h : pushDriver d dj = .ok r) :
    ∀ kv ∈ r, kv.1 ∈ sectKeys := by
  unfold pushDriver at h
  dsimp only at h
  generalize (match getKey d "drivers" with
    | some v => if truthy v then v else Json.arr []
    | none => Json.arr []) = driversV at h
  cases driversV with
  | arr ds =>
    cases h
    exact sect_mem_setKey d "drivers" _ hd (by simp [sectKeys])
  | null => exact Except.noConfusion h
  | bool b => exact Except.noConfusion h
  | num n => exact Except.noConfusion h
  | str s => exact Except.noConfusion h
  | obj fs => exact Except.noConfusion h

theorem composeDriverFlow_sect (n : String) (fj : Json) (P r : Doc)
    (hP : ∀ kv ∈ P, kv.1 ∈ sectKeys) (h : composeDriverFlow n fj P = .ok r) :
    ∀ kv ∈ r, kv.1 ∈ sectKeys := by
  unfold composeDriverFlow at h
  refine foldlM_preserve _ (fun D => ∀ kv ∈ D, kv.1 ∈ sectKeys)
    (fun P2 ty r2 hQ2 h2 => ?_) _ P r hP h
  cases hty : getTruthy fj ty with
  | none =>
    rw [hty] at h2
    cases h2
    exact hQ2
  | some cards =>
    rw [hty] at h2
    cases cards with
    | arr cs =>
      refine foldlM_preserve _ (fun D => ∀ kv ∈ D, kv.1 ∈ sectKeys)
        (fun P3 cd r3 hQ3 h3 => ?_) cs P2 r2 hQ2 h2
      cases hc : composeDriverCard n cd with
      | error e => rw [hc] at h3; exact Except.noConfusion h3
      | ok c2 =>
        rw [hc] at h3
        exact addFlowCard_sect P3 ty c2 none r3 hQ3 h3
    | null => cases h2; exact hQ2
    | bool b => cases h2; exact hQ2
    | num m => cases h2; exact hQ2
    | str s => cases h2; exact hQ2
    | obj fs => cases h2; exact hQ2

theorem driverStep_sect (t : List (String × Json)) (pv : List String) (P r : Doc)
    (e : DriverEntry) (hP : ∀ kv ∈ P, kv.1 ∈ sectKeys)
    (h : driverStep t pv P e = .ok r) : ∀ kv ∈ r, kv.1 ∈ sectKeys := by
  unfold driverStep at h
  by_cases hn : strStartsWith e.name "."
  · rw [if_pos hn] at h
    cases h
    exact hP
  · rw [if_neg hn] at h
    cases hr : resolveDriverJson t pv e with
    | error er => rw [hr] at h; exact Except.noConfusion h
    | ok dj =>
      rw [hr] at h
      simp only [ok_bind] at h
      cases hfjo : e.flow with
      | none =>
        rw [hfjo] at h
        simp only [ok_bind] at h
        exact pushDriver_sect P dj r hP h
      | some fj =>
        rw [hfjo] at h
        simp only [] at h
        cases h2 : composeDriverFlow e.name fj P with
        | error er =>
          rw [h2] at h
          simp only [error_bind] at h
          exact Except.noConfusion h
        | ok D2 =>
          rw [h2] at h
          simp only [ok_bind] at h
          exact pushDriver_sect D2 dj r (composeDriverFlow_sect e.name fj P D2 hP h2) h

theorem composeDrivers_sect (t : List (String × Json)) (pv : List String)
    (drs : List DriverEntry) (P r : Doc) (hP : ∀ kv ∈ P, kv.1 ∈ sectKeys)
    (h : composeDrivers t pv drs P = .ok r) : ∀ kv ∈ r, kv.1 ∈ sectKeys := by
  unfold composeDrivers at h
  exact foldlM_preserve _ (fun D => ∀ kv ∈ D, kv.1 ∈ sectKeys)
    (fun P2 e r2 hQ2 h2 => driverStep_sect t pv P2 r2 e hQ2 h2)
    drs (delKey P "drivers") r (sect_mem_delKey P "drivers" hP) h

theorem composeCapabilities_sect (caps : List (String × Json)) (P : Doc)
    (hP : ∀ kv ∈ P, kv.1 ∈ sectKeys) :
    ∀ kv ∈ composeCapabilities caps P, kv.1 ∈ sectKeys := by
  unfold composeCapabilities
  refine foldl_preserve _ (fun D => ∀ kv ∈ D, kv.1 ∈ sectKeys)
    (fun P2 p hQ2 => ?_) caps (delKey P "capabilities") (sect_mem_delKey P "capabilities" hP)
  unfold capabilityStep
  dsimp only
  generalize (match getKey P2 "capabilities" with
    | some v => if truthy v then v else Json.obj []
    | none => Json.obj []) = capsV
  cases capsV with
  | obj cs => exact sect_mem_setKey P2 "capabilities" _ hQ2 (by simp [sectKeys])
  | arr xs => exact hQ2
  | null => exact hQ2
  | bool b => exact hQ2
  | num n => exact hQ2
  | str s => exact hQ2

theorem addSignals_sect (freq : String) (sigs : List (String × Json)) (P : Doc)
    (hP : ∀ kv ∈ P, kv.1 ∈ sectKeys) :
    ∀ kv ∈ addSignals freq sigs P, kv.1 ∈ sectKeys := by
  unfold addSignals
  refine foldl_preserve _ (fun D => ∀ kv ∈ D, kv.1 ∈ sectKeys)
    (fun P2 p hQ2 => ?_) sigs P hP
  unfold signalStep
  dsimp only
  generalize (match getKey P2 "signals" with
    | some v => if truthy v then v else Json.obj []
    | none => Json.obj []) = sigsV
  cases sigsV with
  | obj ss =>
    dsimp only
    generalize (match getKey ss freq with
      | some v => if truthy v then v else Json.obj []
      | none => Json.obj []) = freqV
    cases freqV with
    | obj fsigs => exact sect_mem_setKey P2 "signals" _ hQ2 (by simp [sectKeys])
    | arr xs => exact hQ2
    | null => exact hQ2
    | bool b => exact hQ2
    | num n => exact hQ2
    | str s => exact hQ2
  | arr xs => exact hQ2
  | null => exact hQ2
  | bool b => exact hQ2
  | num n => exact hQ2
  | str s => exact hQ2

theorem composeSignals_sect (s433 s868 sIR : List (String × Json)) (P : Doc)
    (hP : ∀ kv ∈ P, kv.1 ∈ sectKeys) :
    ∀ kv ∈ composeSignals s433 s868 sIR P, kv.1 ∈ sectKeys := by
  unfold composeSignals
  exact addSignals_sect "ir" sIR _
    (addSignals_sect "868" s868 _
      (addSignals_sect "433" s433 _ (sect_mem_delKey P "signals" hP)))

theorem composeScreensavers_sect (scrs : List (String × Json)) (P r : Doc)
    (hP : ∀ kv ∈ P, kv.1 ∈ sectKeys) (h : composeScreensavers scrs P = .ok r) :
    ∀ kv ∈ r, kv.1 ∈ sectKeys := by
  unfold composeScreensavers at h
  refine foldlM_preserve _ (fun D => ∀ kv ∈ D, kv.1 ∈ sectKeys)
    (fun P2 p r2 hQ2 h2 => ?_) scrs (delKey P "screensavers") r
    (sect_mem_delKey P "screensavers" hP) h
  dsimp only at h2
  cases hj : jsSetProp p.2 "name"
      (match getTruthy p.2 "$name" with
       | some v => v
       | none =>
         match getTruthy p.2 "name" with
         | some v => v
         | none => Json.str p.1) with
  | error e => rw [hj] at h2; exact Except.noConfusion h2
  | ok scr =>
    rw [hj] at h2
    show ∀ kv ∈ r2, kv.1 ∈ sectKeys
    generalize (match getKey P2 "screensavers" with
      | some v => if truthy v then v else Json.arr []
      | none => Json.arr []) = listV at h2
    cases listV with
    | arr xs =>
      cases h2
      exact sect_mem_setKey P2 "screensavers" _ hQ2 (by simp [sectKeys])
    | null => exact Except.noConfusion h2
    | bool b => exact Except.noConfusion h2
    | num n => exact Except.noConfusion h2
    | str s => exact Except.noConfusion h2
    | obj fs => exact Except.noConfusion h2

theorem midSteps_sect (fs : ComposeFS) (E : Doc) (h : midSteps fs [] = .ok E) :
    ∀ kv ∈ E, kv.1 ∈ sectKeys := by
  unfold midSteps at h
  cases h1 : composeFlow fs.flowTriggers fs.flowConditions fs.flowActions [] with
  | error e => rw [h1] at h; exact Except.noConfusion h
  | ok E1 =>
    rw [h1] at h
    simp only [ok_bind] at h
    cases h2 : composeDrivers fs.templates fs.pairViews fs.drivers E1 with
    | error e =>
      rw [h2] at h
      simp only [error_bind] at h
      exact Except.noConfusion h
    | ok E2 =>
      rw [h2] at h
      simp only [ok_bind] at h
      have hQ1 := composeFlow_sect fs.flowTriggers fs.flowConditions fs.flowActions []
        E1 (by intro kv hkv; simp at hkv) h1
      have hQ2 := composeDrivers_sect fs.templates fs.pairViews fs.drivers E1 E2 hQ1 h2
      have hQ3 := composeCapabilities_sect fs.capabilities E2 hQ2
      have hQ4 := composeSignals_sect fs.signals433 fs.signals868 fs.signalsIR _ hQ3
      exact composeScreensavers_sect fs.screensavers _ E hQ4 h

/-- The factorization of the five section-rebuilding steps: the incoming
manifest contributes exactly its non-section fields, in order, and the
rebuilt sections are appended after them, independently of the
incoming manifest. -/
theorem midSteps_split (fs : ComposeFS) (d : Doc) :
    midSteps fs d = (midSteps fs []).map (fun E => nonSect d ++ E) := by
  unfold midSteps
  rw [composeFlow_split fs.flowTriggers fs.flowConditions fs.flowActions d]
  cases h1 : composeFlow fs.flowTriggers fs.flowConditions fs.flowActions [] with
  | error e => rfl
  | ok E1 =>
    show (do
      let d2 ← composeDrivers fs.templates fs.pairViews fs.drivers (delKey d "flow" ++ E1)
      let d3 : Doc := composeCapabilities fs.capabilities d2
      let d4 : Doc := composeSignals fs.signals433 fs.signals868 fs.signalsIR d3
      composeScreensavers fs.screensavers d4) =
      Except.map (fun E => nonSect d ++ E) (do
        let d2 ← composeDrivers fs.templates fs.pairViews fs.drivers E1
        let d3 : Doc := composeCapabilities fs.capabilities d2
        let d4 : Doc := composeSignals fs.signals433 fs.signals868 fs.signalsIR d3
        composeScreensavers fs.screensavers d4)
    rw [composeDrivers_split fs.templates fs.pairViews fs.drivers (delKey d "flow") E1
      (not_mem_keys_delKey d "flow")]
    cases h2 : composeDrivers fs.templates fs.pairViews fs.drivers E1 with
    | error e => rfl
    | ok E2 =>
      show composeScreensavers fs.screensavers
          (composeSignals fs.signals433 fs.signals868 fs.signalsIR
            (composeCapabilities fs.capabilities
              (delKey (delKey d "flow") "drivers" ++ E2))) =
        Except.map (fun E => nonSect d ++ E)
          (composeScreensavers fs.screensavers
            (composeSignals fs.signals433 fs.signals868 fs.signalsIR
              (composeCapabilities fs.capabilities E2)))
      rw [composeCapabilities_split fs.capabilities (delKey (delKey d "flow") "drivers") E2,
        composeSignals_split fs.signals433 fs.signals868 fs.signalsIR
          (delKey (delKey (delKey d "flow") "drivers") "capabilities")
          (composeCapabilities fs.capabilities E2),
        composeScreensavers_split fs.screensavers
          (delKey (delKey (delKey (delKey d "flow") "drivers") "capabilities") "signals")
          (composeSignals fs.signals433 fs.signals868 fs.signalsIR
            (composeCapabilities fs.capabilities E2)),
        delKey_chain d]

/-! ## objectPath lemmas: a path that was set once can be set again -/

theorem getKey_map_setKeyFn_self (fs : Doc) (k : String) (v : Json)
    (h : (getKey fs k).isSome = true) :
    getKey (fs.map (fun kv => if kv.1 == k then (k, v) else kv)) k = some v := by
  induction fs with
  | nil => simp [getKey] at h
  | cons kv fs ih =>
    by_cases hk : kv.1 = k
    · simp [getKey, hk]
    · have hne : (kv.1 == k) = false := beq_eq_false_iff_ne.2 hk
      simp only [getKey, hne, Bool.false_eq_true, if_false] at h
      simp only [List.map_cons, hne, Bool.false_eq_true, if_false]
      simp only [getKey, hne, Bool.false_eq_true, if_false]
      exact ih h

theorem getKey_setKey_self (fs : Doc) (k : String) (v : Json) :
    getKey (setKey fs k v) k = some v := by
  unfold setKey
  cases hg : getKey fs k with
  | some w =>
    simp only [Option.isSome_some, if_true]
    exact getKey_map_setKeyFn_self fs k v (by rw [hg]; rfl)
  | none =>
    simp only [Option.isSome_none, Bool.false_eq_true, if_false]
    rw [getKey_append, hg]
    simp [getKey]

theorem padSet_getElem? (xs : List Json) (i : Nat) (v : Json) :
    (padSet xs i v)[i]? = some v := by
  unfold padSet
  by_cases h : i < xs.length
  · rw [if_pos h]
    exact List.getElem?_set_self h
  · rw [if_neg h]
    have hle : (xs ++ List.replicate (i - xs.length) Json.null).length ≤ i := by
      simp
      omega
    rw [List.getElem?_append_right hle]
    have h0 : i - (xs ++ List.replicate (i - xs.length) Json.null).length = 0 := by
      simp
      omega
    rw [h0]
    rfl

theorem getProp_arr_index (ys : List Json) (p : String) (i : Nat)
    (h : strToNat? p = some i) : getProp (.arr ys) p = ys[i]? := by
  simp only [getProp]
  rw [h]
  dsimp only
  by_cases hl : i < ys.length
  · rw [dif_pos hl, List.getElem?_eq_getElem hl]
  · rw [dif_neg hl, (List.getElem?_eq_none_iff).2 (by omega)]

theorem getProp_opSetLeaf (j : Json) (p : String) (w : Json)
    (h : (getProp j p).isSome = true) : getProp (opSetLeaf j p w) p = some w := by
  cases j with
  | obj fs => exact getKey_setKey_self fs p w
  | arr xs =>
    simp only [getProp] at h
    cases hi : strToNat? p with
    | none => rw [hi] at h; simp at h
    | some i =>
      simp only [opSetLeaf]
      rw [hi]
      rw [getProp_arr_index (padSet xs i w) p i hi]
      exact padSet_getElem? xs i w
  | null => simp [getProp] at h
  | bool b => simp [getProp] at h
  | num n => simp [getProp] at h
  | str s => simp [getProp] at h

theorem opSet_cons_eq (j : Json) (p q : String) (ps : List String) (v : Json) :
    opSet j (p :: q :: ps) v =
      (match getProp j p with
       | some c => do
         let c2 ← opSet c (q :: ps) v
         Except.ok (opSetLeaf j p c2)
       | none =>
         match j with
         | .obj fs => do
           let c2 ← opSet (.obj []) (q :: ps) v
           Except.ok (.obj (setKey fs p c2))
         | .arr xs =>
           match strToNat? p with
           | some i => do
             let c2 ← opSet (.obj []) (q :: ps) v
             Except.ok (.arr (padSet xs i c2))
           | none => do
             let _ ← opSet (.obj []) (q :: ps) v
             Except.ok (.arr xs)
         | _ => .error "TypeError: cannot read property of undefined") := rfl

theorem opSet_emptyObj_ok :
    ∀ (path : List String) (v : Json), ∃ r, opSet (Json.obj []) path v = .ok r
  | [], v => ⟨v, rfl⟩
  | [p], v => ⟨opSetLeaf (Json.obj []) p v, rfl⟩
  | p :: q :: ps, v => by
    obtain ⟨r, hr⟩ := opSet_emptyObj_ok (q :: ps) v
    refine ⟨Json.obj (setKey [] p r), ?_⟩
    show (match getProp (Json.obj []) p with
      | some c => do
        let c2 ← opSet c (q :: ps) v
        Except.ok (opSetLeaf (Json.obj []) p c2)
      | none => do
        let c2 ← opSet (Json.obj []) (q :: ps) v
        Except.ok (Json.obj (setKey [] p c2))) = _
    have hg : getProp (Json.obj []) p = none := rfl
    rw [hg, hr]
    rfl

theorem opGet_cons_eq (j : Json) (p : String) (ps : List String) :
    opGet j (p :: ps) =
      (match getProp j p with
       | some c => opGet c ps
       | none => none) := rfl

theorem opSet_ok_again :
    ∀ (path : List String) (j v r : Json), opSet j path v = .ok r →
      ∀ w, ∃ r2, opSet r path w = .ok r2
  | [], j, v, r, h, w => by
    cases h
    exact ⟨w, rfl⟩
  | [p], j, v, r, h, w => by
    cases h
    exact ⟨opSetLeaf (opSetLeaf j p v) p w, rfl⟩
  | p :: q :: ps, j, v, r, h, w => by
    rw [opSet_cons_eq] at h
    cases hg : getProp j p with
    | some c =>
      rw [hg] at h
      dsimp only at h
      cases hc : opSet c (q :: ps) v with
      | error e =>
        rw [hc] at h
        exact Except.noConfusion h
      | ok c2 =>
        rw [hc] at h
        simp only [ok_bind] at h
        cases h
        have hgr : getProp (opSetLeaf j p c2) p = some c2 :=
          getProp_opSetLeaf j p c2 (by rw [hg]; rfl)
        obtain ⟨r2, hr2⟩ := opSet_ok_again (q :: ps) c v c2 hc w
        refine ⟨opSetLeaf (opSetLeaf j p c2) p r2, ?_⟩
        rw [opSet_cons_eq, hgr]
        dsimp only
        rw [hr2]
        rfl
    | none =>
      rw [hg] at h
      cases j with
      | obj fs =>
        dsimp only at h
        cases hc : opSet (Json.obj []) (q :: ps) v with
        | error e =>
          rw [hc] at h
          exact Except.noConfusion h
        | ok c2 =>
          rw [hc] at h
          simp only [ok_bind] at h
          cases h
          have hgr : getProp (Json.obj (setKey fs p c2)) p = some c2 :=
            getKey_setKey_self fs p c2
          obtain ⟨r2, hr2⟩ := opSet_ok_again (q :: ps) (Json.obj []) v c2 hc w
          refine ⟨opSetLeaf (Json.obj (setKey fs p c2)) p r2, ?_⟩
          rw [opSet_cons_eq, hgr]
          dsimp only
          rw [hr2]
          rfl
      | arr xs =>
        dsimp only at h
        cases hi : strToNat? p with
        | some i =>
          rw [hi] at h
          dsimp only at h
          cases hc : opSet (Json.obj []) (q :: ps) v with
          | error e =>
            rw [hc] at h
            exact Except.noConfusion h
          | ok c2 =>
            rw [hc] at h
            simp only [ok_bind] at h
            cases h
            have hgr : getProp (Json.arr (padSet xs i c2)) p = some c2 := by
              rw [getProp_arr_index (padSet xs i c2) p i hi]
              exact padSet_getElem? xs i c2
            obtain ⟨r2, hr2⟩ := opSet_ok_again (q :: ps) (Json.obj []) v c2 hc w
            refine ⟨opSetLeaf (Json.arr (padSet xs i c2)) p r2, ?_⟩
            rw [opSet_cons_eq, hgr]
            dsimp only
            rw [hr2]
            rfl
        | none =>
          rw [hi] at h
          dsimp only at h
          cases hc : opSet (Json.obj []) (q :: ps) v with
          | error e =>
            rw [hc] at h
            exact Except.noConfusion h
          | ok c2 =>
            rw [hc] at h
            simp only [ok_bind] at h
            cases h
            obtain ⟨r2, hr2⟩ := opSet_emptyObj_ok (q :: ps) w
            refine ⟨Json.arr xs, ?_⟩
            rw [opSet_cons_eq]
            have hgr : getProp (Json.arr xs) p = none := by
              simp only [getProp, hi]
            rw [hgr, hi]
            dsimp only
            rw [hr2]
            rfl
      | null => exact Except.noConfusion h
      | bool b => exact Except.noConfusion h
      | num n => exact Except.noConfusion h
      | str s => exact Except.noConfusion h

theorem opGet_opSet :
    ∀ (path : List String) (j u w r : Json),
      opGet j path = some u → opSet j path w = .ok r → opGet r path = some w
  | [], j, u, w, r, _, hs => by
    cases hs
    rfl
  | [p], j, u, w, r, hg, hs => by
    cases hs
    rw [opGet_cons_eq] at hg ⊢
    cases hgp : getProp j p with
    | none => rw [hgp] at hg; exact Option.noConfusion hg
    | some c =>
      rw [getProp_opSetLeaf j p w (by rw [hgp]; rfl)]
      rfl
  | p :: q :: ps, j, u, w, r, hg, hs => by
    rw [opGet_cons_eq] at hg
    cases hgp : getProp j p with
    | none => rw [hgp] at hg; exact Option.noConfusion hg
    | some c =>
      rw [hgp] at hg
      dsimp only at hg
      rw [opSet_cons_eq, hgp] at hs
      dsimp only at hs
      cases hc : opSet c (q :: ps) w with
      | error e =>
        rw [hc] at hs
        exact Except.noConfusion hs
      | ok c2 =>
        rw [hc] at hs
        simp only [ok_bind] at hs
        cases hs
        rw [opGet_cons_eq, getProp_opSetLeaf j p c2 (by rw [hgp]; rfl)]
        dsimp only
        exact opGet_opSet (q :: ps) c u w c2 hg hc

/-! ## The locale merge can run again on its own output -/

theorem getKey_map_setKeyFn_ne (k k2 : String) (v : Json) (h : k ≠ k2) :
    ∀ d : Doc, getKey (d.map (fun kv => if kv.1 == k2 then (k2, v) else kv)) k = getKey d k
  | [] => rfl
  | kv :: d => by
    by_cases hk : kv.1 = k2
    · have hne : (kv.1 == k) = false :=
        beq_eq_false_iff_ne.2 (hk ▸ fun he => h he.symm)
      have hne2 : (k2 == k) = false := beq_eq_false_iff_ne.2 (fun he => h he.symm)
      simp only [List.map_cons, beq_iff_eq.2 hk, if_true, getKey, hne, hne2,
        Bool.false_eq_true, if_false]
      exact getKey_map_setKeyFn_ne k k2 v h d
    · simp only [List.map_cons, beq_eq_false_iff_ne.2 hk, Bool.false_eq_true, if_false,
        getKey]
      by_cases hk3 : kv.1 = k
      · simp [hk3]
      · simp only [beq_eq_false_iff_ne.2 hk3, Bool.false_eq_true, if_false]
        exact getKey_map_setKeyFn_ne k k2 v h d

theorem truthy_localeBase (L : List (String × Json)) (lang : String) :
    truthy (localeBase L lang) = true := by
  unfold localeBase
  cases hg : getKey L lang with
  | none => rfl
  | some v =>
    dsimp only
    by_cases ht : truthy v = true
    · rw [if_pos ht]; exact ht
    · rw [if_neg ht]; rfl

theorem truthy_opSetLeaf (j : Json) (p : String) (v : Json) (h : truthy j = true) :
    truthy (opSetLeaf j p v) = true := by
  cases j with
  | obj fs => rfl
  | arr xs =>
    unfold opSetLeaf
    cases hi : strToNat? p with
    | some i => rfl
    | none => rfl
  | null => exact h
  | bool b => exact h
  | num n => exact h
  | str s => exact h

theorem truthy_opSet :
    ∀ (path : List String) (j v r : Json), path ≠ [] → opSet j path v = .ok r →
      truthy j = true → truthy r = true
  | [], _, _, _, hne, _, _ => absurd rfl hne
  | [p], j, v, r, _, hs, ht => by
    cases hs
    exact truthy_opSetLeaf j p v ht
  | p :: q :: ps, j, v, r, _, hs, ht => by
    rw [opSet_cons_eq] at hs
    cases hg : getProp j p with
    | some c =>
      rw [hg] at hs
      dsimp only at hs
      cases hc : opSet c (q :: ps) v with
      | error e => rw [hc] at hs; exact Except.noConfusion hs
      | ok c2 =>
        rw [hc] at hs
        simp only [ok_bind] at hs
        cases hs
        exact truthy_opSetLeaf j p c2 ht
    | none =>
      rw [hg] at hs
      cases j with
      | obj fs =>
        dsimp only at hs
        cases hc : opSet (.obj []) (q :: ps) v with
        | error e => rw [hc] at hs; exact Except.noConfusion hs
        | ok c2 =>
          rw [hc] at hs
          simp only [ok_bind] at hs
          cases hs
          rfl
      | arr xs =>
        dsimp only at hs
        cases hi : strToNat? p with
        | some i =>
          rw [hi] at hs
          dsimp only at hs
          cases hc : opSet (.obj []) (q :: ps) v with
          | error e => rw [hc] at hs; exact Except.noConfusion hs
          | ok c2 =>
            rw [hc] at hs
            simp only [ok_bind] at hs
            cases hs
            rfl
        | none =>
          rw [hi] at hs
          dsimp only at hs
          cases hc : opSet (.obj []) (q :: ps) v with
          | error e => rw [hc] at hs; exact Except.noConfusion hs
          | ok c2 =>
            rw [hc] at hs
            simp only [ok_bind] at hs
            cases hs
            exact ht
      | null => exact Except.noConfusion hs
      | bool b => exact Except.noConfusion hs
      | num n => exact Except.noConfusion hs
      | str s => exact Except.noConfusion hs

theorem localeMerge_ok_again (base : Json) (rest : List String) (frag tree1 : Json)
    (h : localeMerge base rest frag = .ok tree1) :
    ∃ t2, localeMerge tree1 rest frag = .ok t2 := by
  unfold localeMerge at h ⊢
  by_cases hrest : rest.isEmpty = true
  · rw [if_pos hrest]
    exact ⟨deepmerge tree1 frag, rfl⟩
  · rw [if_neg hrest] at h ⊢
    cases hg : opGet base rest with
    | some v =>
      rw [hg] at h
      dsimp only at h
      simp only [ok_bind] at h
      cases hg2 : opGet tree1 rest with
      | some v2 =>
        dsimp only
        simp only [ok_bind]
        exact opSet_ok_again rest base (deepmerge v frag) tree1 h (deepmerge v2 frag)
      | none =>
        have hcontra := opGet_opSet rest base v (deepmerge v frag) tree1 hg h
        rw [hg2] at hcontra
        exact Option.noConfusion hcontra
    | none =>
      rw [hg] at h
      dsimp only at h
      cases hdu : deepmergeUndefined frag with
      | error e =>
        rw [hdu] at h
        simp only [error_bind] at h
        exact Except.noConfusion h
      | ok merged =>
        rw [hdu] at h
        simp only [ok_bind] at h
        cases hg2 : opGet tree1 rest with
        | some v2 =>
          dsimp only
          simp only [ok_bind]
          exact opSet_ok_again rest base merged tree1 h (deepmerge v2 frag)
        | none =>
          dsimp only
          simp only [ok_bind]
          exact opSet_ok_again rest base merged tree1 h merged

theorem localeFragmentStep_ok_elim (st : LocaleState) (p : String × Json) (st' : LocaleState)
    (h : localeFragmentStep st p = .ok st') :
    ∃ tree,
      localeMerge (localeBase st.locales (localeLang p.1)) (splitOnDot (stripJson p.1)).tail
        p.2 = .ok tree ∧
      st' = { locales := setKey
                (setKey st.locales (localeLang p.1) (localeBase st.locales (localeLang p.1)))
                (localeLang p.1) tree
              changed := if st.changed.contains (localeLang p.1) then st.changed
                else st.changed ++ [localeLang p.1] } := by
  unfold localeFragmentStep at h
  dsimp only at h
  cases hm : localeMerge (localeBase st.locales ((splitOnDot (stripJson p.1)).headD ""))
      (splitOnDot (stripJson p.1)).tail p.2 with
  | error e =>
    rw [hm] at h
    simp only [error_bind] at h
    exact Except.noConfusion h
  | ok tree =>
    rw [hm] at h
    simp only [ok_bind] at h
    cases h
    exact ⟨tree, hm, rfl⟩

theorem localeFragmentStep_ok_intro (st : LocaleState) (p : String × Json) (tree : Json)
    (hm : localeMerge (localeBase st.locales (localeLang p.1))
      (splitOnDot (stripJson p.1)).tail p.2 = .ok tree) :
    localeFragmentStep st p = .ok
      { locales := setKey
          (setKey st.locales (localeLang p.1) (localeBase st.locales (localeLang p.1)))
          (localeLang p.1) tree
        changed := if st.changed.contains (localeLang p.1) then st.changed
          else st.changed ++ [localeLang p.1] } := by
  unfold localeFragmentStep
  dsimp only
  unfold localeLang at hm
  rw [hm]
  rfl

theorem getKey_setKey_ne (d : Doc) (k k2 : String) (v : Json) (h : k ≠ k2) :
    getKey (setKey d k2 v) k = getKey d k := by
  unfold setKey
  by_cases hg : (getKey d k2).isSome
  · rw [if_pos hg]
    exact getKey_map_setKeyFn_ne k k2 v h d
  · rw [if_neg hg, getKey_append]
    cases hgk : getKey d k with
    | some w => rfl
    | none => simp [getKey, beq_eq_false_iff_ne.2 (fun he => h he.symm)]

theorem localeFragmentStep_locality (st st' : LocaleState) (p : String × Json) (k : String)
    (h : localeFragmentStep st p = .ok st') (hk : k ≠ localeLang p.1) :
    getKey st'.locales k = getKey st.locales k := by
  obtain ⟨tree, _, hst⟩ := localeFragmentStep_ok_elim st p st' h
  rw [hst]
  dsimp only
  rw [getKey_setKey_ne _ _ _ _ hk, getKey_setKey_ne _ _ _ _ hk]

theorem localeFragmentStep_changed_self (st st' : LocaleState) (p : String × Json)
    (h : localeFragmentStep st p = .ok st') : localeLang p.1 ∈ st'.changed := by
  obtain ⟨tree, _, hst⟩ := localeFragmentStep_ok_elim st p st' h
  rw [hst]
  dsimp only
  by_cases hc : st.changed.contains (localeLang p.1) = true
  · rw [if_pos hc]
    simpa using hc
  · rw [if_neg hc]
    exact List.mem_append_right _ (List.mem_singleton.2 rfl)

theorem localeFragmentStep_changed_mono (st st' : LocaleState) (p : String × Json) (k : String)
    (h : localeFragmentStep st p = .ok st') (hmem : k ∈ st.changed) : k ∈ st'.changed := by
  obtain ⟨tree, _, hst⟩ := localeFragmentStep_ok_elim st p st' h
  rw [hst]
  dsimp only
  by_cases hc : st.changed.contains (localeLang p.1) = true
  · rw [if_pos hc]
    exact hmem
  · rw [if_neg hc]
    exact List.mem_append_left _ hmem

theorem localeFragmentStep_changed_nodup (st st' : LocaleState) (p : String × Json)
    (h : localeFragmentStep st p = .ok st') (hnd : st.changed.Nodup) : st'.changed.Nodup := by
  obtain ⟨tree, _, hst⟩ := localeFragmentStep_ok_elim st p st' h
  rw [hst]
  dsimp only
  by_cases hc : st.changed.contains (localeLang p.1) = true
  · rw [if_pos hc]
    exact hnd
  · rw [if_neg hc]
    have hnm : localeLang p.1 ∉ st.changed := by simpa using hc
    simp [List.nodup_append, hnd, hnm]

theorem localeFragmentStep_inv (st st' : LocaleState) (p : String × Json)
    (h : localeFragmentStep st p = .ok st')
    (hinv : ∀ k ∈ st.changed, (getKey st.locales k).isSome = true) :
    ∀ k ∈ st'.changed, (getKey st'.locales k).isSome = true := by
  obtain ⟨tree, _, hst⟩ := localeFragmentStep_ok_elim st p st' h
  intro k hk
  by_cases he : k = localeLang p.1
  · subst he
    rw [hst]
    dsimp only
    rw [getKey_setKey_self]
    rfl
  · rw [hst]
    dsimp only
    rw [getKey_setKey_ne _ _ _ _ he, getKey_setKey_ne _ _ _ _ he]
    apply hinv
    rw [hst] at hk
    dsimp only at hk
    by_cases hc : st.changed.contains (localeLang p.1) = true
    · rw [if_pos hc] at hk
      exact hk
    · rw [if_neg hc] at hk
      rcases List.mem_append.1 hk with hk1 | hk2
      · exact hk1
      · exact absurd (List.mem_singleton.1 hk2) he

theorem localeFragmentStep_again (st1 st1' st2 : LocaleState) (p : String × Json)
    (h : localeFragmentStep st1 p = .ok st1')
    (hag : getKey st2.locales (localeLang p.1) = getKey st1'.locales (localeLang p.1)) :
    ∃ st2', localeFragmentStep st2 p = .ok st2' := by
  obtain ⟨tree, hm, hst⟩ := localeFragmentStep_ok_elim st1 p st1' h
  by_cases hrest : ((splitOnDot (stripJson p.1)).tail).isEmpty = true
  · refine ⟨_, localeFragmentStep_ok_intro st2 p
      (deepmerge (localeBase st2.locales (localeLang p.1)) p.2) ?_⟩
    unfold localeMerge
    rw [if_pos hrest]
  · have hne : (splitOnDot (stripJson p.1)).tail ≠ [] := by
      intro hnil
      exact hrest (by rw [hnil]; rfl)
    have htree : getKey st2.locales (localeLang p.1) = some tree := by
      rw [hag, hst]
      dsimp only
      exact getKey_setKey_self _ _ _
    have htruthy : truthy tree = true := by
      unfold localeMerge at hm
      rw [if_neg hrest] at hm
      cases hg : opGet (localeBase st1.locales (localeLang p.1))
          ((splitOnDot (stripJson p.1)).tail) with
      | some v =>
        rw [hg] at hm
        dsimp only at hm
        simp only [ok_bind] at hm
        exact truthy_opSet _ _ _ _ hne hm (truthy_localeBase _ _)
      | none =>
        rw [hg] at hm
        dsimp only at hm
        cases hdu : deepmergeUndefined p.2 with
        | error e =>
          rw [hdu] at hm
          simp only [error_bind] at hm
          exact Except.noConfusion hm
        | ok merged =>
          rw [hdu] at hm
          simp only [ok_bind] at hm
          exact truthy_opSet _ _ _ _ hne hm (truthy_localeBase _ _)
    have hbase2 : localeBase st2.locales (localeLang p.1) = tree := by
      unfold localeBase
      rw [htree]
      dsimp only
      rw [if_pos htruthy]
    obtain ⟨t2, ht2⟩ := localeMerge_ok_again _ _ _ _ hm
    refine ⟨_, localeFragmentStep_ok_intro st2 p t2 ?_⟩
    rw [hbase2]
    exact ht2


theorem foldLocale_locality :
    ∀ (frags : List (String × Json)) (st st' : LocaleState) (k : String),
      frags.foldlM localeFragmentStep st = .ok st' →
      (∀ q ∈ frags, k ≠ localeLang q.1) →
      getKey st'.locales k = getKey st.locales k
  | [], _, _, k, h, _ => by cases h; rfl
  | p :: frags, st, st', k, h, hk => by
    rw [List.foldlM_cons] at h
    cases hs : localeFragmentStep st p with
    | error e => rw [hs] at h; exact Except.noConfusion h
    | ok stm =>
      rw [hs] at h
      rw [foldLocale_locality frags stm st' k h (fun q hq => hk q (List.mem_cons_of_mem p hq))]
      exact localeFragmentStep_locality st stm p k hs (hk p (List.mem_cons_self p frags))

theorem foldLocale_changed_mono :
    ∀ (frags : List (String × Json)) (st st' : LocaleState) (k : String),
      frags.foldlM localeFragmentStep st = .ok st' → k ∈ st.changed → k ∈ st'.changed
  | [], _, _, _, h, hm => by cases h; exact hm
  | p :: frags, st, st', k, h, hm => by
    rw [List.foldlM_cons] at h
    cases hs : localeFragmentStep st p with
    | error e => rw [hs] at h; exact Except.noConfusion h
    | ok stm =>
      rw [hs] at h
      exact foldLocale_changed_mono frags stm st' k h
        (localeFragmentStep_changed_mono st stm p k hs hm)

theorem foldLocale_changed_mem :
    ∀ (frags : List (String × Json)) (st st' : LocaleState),
      frags.foldlM localeFragmentStep st = .ok st' →
      ∀ q ∈ frags, localeLang q.1 ∈ st'.changed
  | [], _, _, _, q, hq => absurd hq (List.not_mem_nil q)
  | p :: frags, st, st', h, q, hq => by
    rw [List.foldlM_cons] at h
    cases hs : localeFragmentStep st p with
    | error e => rw [hs] at h; exact Except.noConfusion h
    | ok stm =>
      rw [hs] at h
      rcases List.mem_cons.1 hq with he | hm
      · subst he
        exact foldLocale_changed_mono frags stm st' (localeLang q.1) h
          (localeFragmentStep_changed_self st stm q hs)
      · exact foldLocale_changed_mem frags stm st' h q hm

theorem foldLocale_changed_nodup :
    ∀ (frags : List (String × Json)) (st st' : LocaleState),
      frags.foldlM localeFragmentStep st = .ok st' → st.changed.Nodup → st'.changed.Nodup
  | [], _, _, h, hnd => by cases h; exact hnd
  | p :: frags, st, st', h, hnd => by
    rw [List.foldlM_cons] at h
    cases hs : localeFragmentStep st p with
    | error e => rw [hs] at h; exact Except.noConfusion h
    | ok stm =>
      rw [hs] at h
      exact foldLocale_changed_nodup frags stm st' h
        (localeFragmentStep_changed_nodup st stm p hs hnd)

theorem foldLocale_inv :
    ∀ (frags : List (String × Json)) (st st' : LocaleState),
      frags.foldlM localeFragmentStep st = .ok st' →
      (∀ k ∈ st.changed, (getKey st.locales k).isSome = true) →
      ∀ k ∈ st'.changed, (getKey st'.locales k).isSome = true
  | [], _, _, h, hinv => by cases h; exact hinv
  | p :: frags, st, st', h, hinv => by
    rw [List.foldlM_cons] at h
    cases hs : localeFragmentStep st p with
    | error e => rw [hs] at h; exact Except.noConfusion h
    | ok stm =>
      rw [hs] at h
      exact foldLocale_inv frags stm st' h (localeFragmentStep_inv st stm p hs hinv)

theorem foldLocale_again :
    ∀ (frags : List (String × Json)) (st1 st1' st2 : LocaleState),
      (frags.map (fun q => localeLang q.1)).Nodup →
      frags.foldlM localeFragmentStep st1 = .ok st1' →
      (∀ q ∈ frags,
        getKey st2.locales (localeLang q.1) = getKey st1'.locales (localeLang q.1)) →
      ∃ st2', frags.foldlM localeFragmentStep st2 = .ok st2'
  | [], _, _, st2, _, _, _ => ⟨st2, rfl⟩
  | p :: frags, st1, st1', st2, hnd, h, hag => by
    simp only [List.map_cons, List.nodup_cons] at hnd
    rw [List.foldlM_cons] at h
    cases hs : localeFragmentStep st1 p with
    | error e => rw [hs] at h; exact Except.noConfusion h
    | ok st1m =>
      rw [hs] at h
      have h' : frags.foldlM localeFragmentStep st1m = .ok st1' := h
      have hpn : ∀ q ∈ frags, localeLang p.1 ≠ localeLang q.1 :=
        fun q hq heq => hnd.1 (List.mem_map.2 ⟨q, hq, heq.symm⟩)
      have hag_p : getKey st2.locales (localeLang p.1) = getKey st1m.locales (localeLang p.1) := by
        rw [hag p (List.mem_cons_self p frags)]
        exact foldLocale_locality frags st1m st1' (localeLang p.1) h' hpn
      obtain ⟨st2m, hs2⟩ := localeFragmentStep_again st1 st1m st2 p hs hag_p
      have hag' : ∀ q ∈ frags,
          getKey st2m.locales (localeLang q.1) = getKey st1'.locales (localeLang q.1) := by
        intro q hq
        rw [localeFragmentStep_locality st2 st2m p (localeLang q.1) hs2 (hpn q hq).symm]
        exact hag q (List.mem_cons_of_mem p hq)
      obtain ⟨st2', h2⟩ := foldLocale_again frags st1m st1' st2m hnd.2 h' hag'
      exact ⟨st2', by rw [List.foldlM_cons, hs2]; exact h2⟩

theorem getKey_foldl_setKey_not_mem :
    ∀ (ps : List (String × Json)) (acc : Doc) (k : String),
      k ∉ ps.map Prod.fst →
      getKey (ps.foldl (fun a q => setKey a q.1 q.2) acc) k = getKey acc k
  | [], _, _, _ => rfl
  | q :: ps, acc, k, h => by
    simp only [List.map_cons, List.mem_cons] at h
    rw [List.foldl_cons]
    rw [getKey_foldl_setKey_not_mem ps _ k (fun hm => h (Or.inr hm)),
      getKey_setKey_ne acc k q.1 q.2 (fun he => h (Or.inl he))]

theorem getKey_foldl_setKey_mem :
    ∀ (ps : List (String × Json)) (acc : Doc) (k : String) (v : Json),
      (ps.map Prod.fst).Nodup → (k, v) ∈ ps →
      getKey (ps.foldl (fun a q => setKey a q.1 q.2) acc) k = some v
  | [], _, k, v, _, hm => absurd hm (List.not_mem_nil (k, v))
  | q :: ps, acc, k, v, hnd, hm => by
    simp only [List.map_cons, List.nodup_cons] at hnd
    rw [List.foldl_cons]
    rcases List.mem_cons.1 hm with he | hm2
    · subst he
      rw [getKey_foldl_setKey_not_mem ps _ k hnd.1, getKey_setKey_self]
    · exact getKey_foldl_setKey_mem ps _ k v hnd.2 hm2

theorem option_some_getD (o : Option Json) (h : o.isSome = true) :
    some (o.getD Json.null) = o := by
  cases o with
  | none => exact Bool.noConfusion h
  | some v => rfl

theorem composeLocalesCore_again (appLocales frags : List (String × Json)) (st : LocaleState)
    (hNC : NonConflictingLocales frags)
    (h : composeLocalesCore appLocales frags = .ok st) :
    ∃ st2, composeLocalesCore
      ((localesWritten st).foldl (fun acc q => setKey acc q.1 q.2) appLocales) frags =
        .ok st2 := by
  unfold composeLocalesCore at h ⊢
  apply foldLocale_again frags { locales := appLocales, changed := [] } st
    { locales := (localesWritten st).foldl (fun acc q => setKey acc q.1 q.2) appLocales
      changed := [] } hNC h
  intro q hq
  have hmem : localeLang q.1 ∈ st.changed := foldLocale_changed_mem frags _ st h q hq
  have hnd : st.changed.Nodup := foldLocale_changed_nodup frags _ st h List.nodup_nil
  have hsome : (getKey st.locales (localeLang q.1)).isSome = true :=
    foldLocale_inv frags _ st h (fun k hk => absurd hk (List.not_mem_nil k)) _ hmem
  have hkeys : (localesWritten st).map Prod.fst = st.changed := by
    unfold localesWritten
    rw [List.map_map,
      show (Prod.fst ∘ fun lang => (lang, (getKey st.locales lang).getD Json.null)) = id
        from rfl,
      List.map_id]
  have hin : (localeLang q.1, (getKey st.locales (localeLang q.1)).getD Json.null) ∈
      localesWritten st :=
    List.mem_map_of_mem (fun lang => (lang, (getKey st.locales lang).getD Json.null)) hmem
  dsimp only
  rw [getKey_foldl_setKey_mem (localesWritten st) appLocales _ _ (by rw [hkeys]; exact hnd) hin]
  exact option_some_getD _ hsome

theorem keys_filter_sublist (p : String × Json → Bool) (d : Doc) :
    List.Sublist (keys (d.filter p)) (keys d) :=
  List.Sublist.map _ (List.filter_sublist d)

theorem keys_strip_sublist (d : Doc) :
    List.Sublist (keys (stripDollarFields d)) (keys d) := by
  rw [stripDollarFields_eq]
  rw [show keys ((d.filter (fun kv => !(strStartsWith kv.1 "$"))).map
      (fun kv => (kv.1, removeDollarPropertiesRecursive kv.2))) =
      keys (d.filter (fun kv => !(strStartsWith kv.1 "$"))) from keys_map_value _ _]
  exact keys_filter_sublist _ d

theorem keys_nonSect_sublist (d : Doc) : List.Sublist (keys (nonSect d)) (keys d) :=
  keys_filter_sublist _ d

theorem spread_restore (CF Bf E : Doc)
    (hnd : (keys CF).Nodup)
    (hsect : ∀ kv ∈ E, kv.1 ∈ sectKeys) :
    stripDollarFields (nonSect (spreadFields CF
        (stripDollarFields (nonSect (spreadFields CF Bf) ++ E))) ++ E) =
      stripDollarFields (nonSect (spreadFields CF Bf) ++ E) := by
  have hkeysE : ∀ kv ∈ stripDollarFields E, kv.1 ∈ sectKeys := by
    intro kv hkv
    have h2 : kv.1 ∈ keys E :=
      keys_strip_subset E kv.1 (List.mem_map_of_mem (fun kv => kv.1) hkv)
    obtain ⟨kv2, hkv2, he⟩ := List.mem_map.1 h2
    rw [← he]
    exact hsect kv2 hkv2
  have hsub : List.Sublist (keys (stripDollarFields (nonSect CF))) (keys CF) :=
    (keys_strip_sublist (nonSect CF)).trans (keys_nonSect_sublist CF)
  have hC2nd : (keys (stripDollarFields (nonSect CF))).Nodup := List.Nodup.sublist hsub hnd
  have hA : stripDollarFields (nonSect (spreadFields CF Bf)) =
      spreadFields (stripDollarFields (nonSect CF)) (stripDollarFields (nonSect Bf)) := by
    rw [nonSect_spread, strip_spread]
  rw [stripDollarFields_append, stripDollarFields_append, hA]
  congr 1
  rw [nonSect_spread, nonSect_append]
  rw [nonSect_eq_nil (stripDollarFields E) hkeysE, List.append_nil]
  rw [nonSect_spread]
  rw [nonSect_strip_comm, nonSect_idem, nonSect_strip_comm, nonSect_idem]
  rw [strip_spread, strip_spread]
  rw [stripFields_idem, stripFields_idem]
  exact spread_absorb _ _ hC2nd

/-- C2: For every non-conflicting fragment set — no two compose locale
fragments target the same language — and an overlay manifest without
duplicate top-level keys (JSON.parse never produces duplicates), a
successful run is idempotent: the first run's locale merge succeeded
with some final state, and running the full assembly again on the
directory exactly as the first run left it (the canonical manifest
now the base app.json, the rewritten locale files in /locales)
produces the identical canonical manifest. -/
theorem run_idempotent (fs : ComposeFS) (m : Doc)
    (hnd : (keys (ownFields (fs.appJsonCompose.getD (.obj [])))).Nodup)
    (hNC : NonConflictingLocales fs.localeFragments)
    (h : run fs = .ok m) :
    ∃ st, composeLocalesCore fs.appLocales fs.localeFragments = .ok st ∧
      run (fsAfterRun fs m (localesWritten st)) = .ok m := by
  unfold run at h
  cases hbase : fs.appJson with
  | none =>
    rw [hbase] at h
    exact Except.noConfusion h
  | some b =>
    rw [hbase] at h
    dsimp only at h
    simp only [ok_bind] at h
    rw [midSteps_split fs (appJsonMerge (fs.appJsonCompose.getD (Json.obj [])) b)] at h
    cases hE : midSteps fs [] with
    | error e =>
      rw [hE] at h
      exact Except.noConfusion h
    | ok E =>
      rw [hE] at h
      dsimp only [Except.map] at h
      simp only [ok_bind] at h
      cases hloc : composeLocalesCore fs.appLocales fs.localeFragments with
      | error e =>
        rw [hloc] at h
        simp only [error_bind] at h
        exact Except.noConfusion h
      | ok st =>
        rw [hloc] at h
        simp only [ok_bind] at h
        have hm : stripDollarFields
            (nonSect (appJsonMerge (fs.appJsonCompose.getD (Json.obj [])) b) ++ E) = m := by
          cases h
          rfl
        have hsect := midSteps_sect fs E hE
        refine ⟨st, rfl, ?_⟩
        unfold run
        rw [show (fsAfterRun fs m (localesWritten st)).appJson = some (Json.obj m) from rfl]
        dsimp only
        simp only [ok_bind]
        rw [show (fsAfterRun fs m (localesWritten st)).appJsonCompose = fs.appJsonCompose
          from rfl]
        rw [midSteps_split (fsAfterRun fs m (localesWritten st))
          (appJsonMerge (fs.appJsonCompose.getD (Json.obj [])) (Json.obj m))]
        rw [show midSteps (fsAfterRun fs m (localesWritten st)) [] = midSteps fs [] from rfl,
          hE]
        dsimp only [Except.map]
        simp only [ok_bind]
        obtain ⟨st2, hst2⟩ :=
          composeLocalesCore_again fs.appLocales fs.localeFragments st hNC hloc
        rw [show (fsAfterRun fs m (localesWritten st)).appLocales =
          (localesWritten st).foldl (fun acc q => setKey acc q.1 q.2) fs.appLocales from rfl]
        rw [show (fsAfterRun fs m (localesWritten st)).localeFragments = fs.localeFragments
          from rfl]
        rw [hst2]
        simp only [ok_bind]
        rw [← hm]
        exact congrArg Except.ok
          (spread_restore (ownFields (fs.appJsonCompose.getD (Json.obj []))) (ownFields b) E
            hnd hsect)

theorem run_idempotent_witness :
    (keys (ownFields (fsC2.appJsonCompose.getD (.obj [])))).Nodup ∧
    NonConflictingLocales fsC2.localeFragments ∧
    run fsC2 = .ok [("version", .str "1.0.0"), ("id", .str "app")] ∧
    ∃ st, composeLocalesCore fsC2.appLocales fsC2.localeFragments = .ok st ∧
      run (fsAfterRun fsC2 [("version", .str "1.0.0"), ("id", .str "app")]
        (localesWritten st)) = .ok [("version", .str "1.0.0"), ("id", .str "app")] :=
  ⟨by decide, by unfold NonConflictingLocales; decide, by rfl,
    run_idempotent fsC2 [("version", .str "1.0.0"), ("id", .str "app")] (by decide)
      (by unfold NonConflictingLocales; decide) (by rfl)⟩

/-- C1: every canonical manifest a successful run returns for saving
carries no key beginning with "$" at any nesting depth (inside nested
objects and arrays included): _saveAppJson applies
removeDollarPropertiesRecursive before serializing. -/
theorem run_no_dollar (fs : ComposeFS) (m : Doc) (h : run fs = .ok m) :
    noDollarKeysFields m = true := by
  unfold run at h
  cases hbase : fs.appJson with
  | none =>
    rw [hbase] at h
    exact Except.noConfusion h
  | some b =>
    rw [hbase] at h
    dsimp only at h
    simp only [ok_bind] at h
    cases hmid : midSteps fs (appJsonMerge (fs.appJsonCompose.getD (Json.obj [])) b) with
    | error e =>
      rw [hmid] at h
      simp only [error_bind] at h
      exact Except.noConfusion h
    | ok d5 =>
      rw [hmid] at h
      simp only [ok_bind] at h
      cases hloc : composeLocalesCore fs.appLocales fs.localeFragments with
      | error e =>
        rw [hloc] at h
        simp only [error_bind] at h
        exact Except.noConfusion h
      | ok st =>
        rw [hloc] at h
        simp only [ok_bind] at h
        cases h
        exact noDollar_stripFields d5

theorem run_no_dollar_witness :
    run fsC1 = .ok [("id", .str "app"),
      ("settings", .obj [("deep", .arr [.obj [("ok", .bool true)]])])] ∧
    noDollarKeysFields [("id", Json.str "app"),
      ("settings", .obj [("deep", .arr [.obj [("ok", .bool true)]])])] = true :=
  ⟨by rfl, run_no_dollar fsC1 [("id", .str "app"),
      ("settings", .obj [("deep", .arr [.obj [("ok", .bool true)]])])] (by rfl)⟩

theorem spread_nil_left (b : Doc) : spreadFields [] b = b := by
  unfold spreadFields
  rw [List.map_nil, List.nil_append]
  rw [List.filter_eq_self.2]
  intro kv _
  rfl

theorem foldl_templates_none (templates : List (String × Json)) :
    ∀ (L : List Json) (acc : Doc),
      (∀ tid ∈ L, getKey templates (jsToString tid) = none) →
      L.foldl (fun acc tid =>
        match getKey templates (jsToString tid) with
        | some t => spreadFields acc (ownFields t)
        | none => acc) acc = acc
  | [], _, _ => rfl
  | t :: L, acc, hall => by
    rw [List.foldl_cons]
    rw [hall t (List.mem_cons_self t L)]
    exact foldl_templates_none templates L acc
      (fun tid h => hall tid (List.mem_cons_of_mem t h))

/-- C3: a driver compose file whose $extends names a template id absent
from the template table does not make assembly fail; the unknown id
spreads undefined, a no-op, and the driver resolves to its own fields
with $extends normalized to an array (the key is stripped from the
saved manifest later).  This refutes the claimed UnknownTemplateError:
see the closed counterexample on fsC3. -/
theorem resolveExtends_unknown (templates : List (String × Json)) (fsx : Doc) (ext : Json)
    (hx : getTruthy (Json.obj fsx) "$extends" = some ext)
    (hall : ∀ tid ∈ (match ext with | Json.arr xs => xs | v => [v]),
      getKey templates (jsToString tid) = none) :
    resolveExtends templates (.obj fsx) =
      .obj (setKey fsx "$extends"
        (.arr (match ext with | Json.arr xs => xs | v => [v]))) := by
  unfold resolveExtends
  rw [hx]
  dsimp only
  rw [foldl_templates_none templates _ [] hall]
  rw [spread_nil_left]
  rfl

theorem resolveExtends_unknown_witness :
    getTruthy (Json.obj [("$extends", Json.str "missing-template"),
      ("class", Json.str "light")]) "$extends" = some (.str "missing-template") ∧
    resolveExtends [("other", .obj [("x", .num 1)])]
      (.obj [("$extends", .str "missing-template"), ("class", .str "light")]) =
      .obj [("$extends", .arr [.str "missing-template"]), ("class", .str "light")] :=
  ⟨rfl, by
    exact resolveExtends_unknown [("other", .obj [("x", .num 1)])]
      [("$extends", .str "missing-template"), ("class", .str "light")]
      (.str "missing-template") rfl (by decide)⟩

theorem run_missing_template_no_error :
    run fsC3 = .ok [("id", .str "app"),
      ("drivers", .arr [.obj [("class", .str "light"), ("id", .str "mydriver")]])] := by
  rfl

theorem getKey_spread_some_right (a b : Doc) (k : String) (v : Json)
    (h : getKey b k = some v) : getKey (spreadFields a b) k = some v := by
  by_cases hm : k ∈ keys a
  · rw [getKey_spread_mem a b k hm, h]
  · rw [getKey_spread_not_mem a b k hm, h]

theorem getKey_spread_none_right (a b : Doc) (k : String) (h : getKey b k = none) :
    getKey (spreadFields a b) k = getKey a k := by
  by_cases hm : k ∈ keys a
  · rw [getKey_spread_mem a b k hm, h]
  · rw [getKey_spread_not_mem a b k hm, h, (getKey_eq_none_iff a k).2 hm]

/-- C4: with $extends [T1, T2] resolving through templates "t1" and
"t2", every top-level field the driver itself defines keeps the
driver's value in the resolved driver (driver overrides win), and a
field the driver does not define but both templates do resolves to
T2's value (the later template overrides the earlier: the templates
are folded left to right with object spread and the driver's own
fields are spread last). -/
theorem resolveExtends_precedence (templates : List (String × Json)) (t1f t2f fsx : Doc)
    (F : String) (hF : F ≠ "$extends")
    (h1 : getKey templates "t1" = some (.obj t1f))
    (h2 : getKey templates "t2" = some (.obj t2f))
    (hx : getTruthy (Json.obj fsx) "$extends" = some (.arr [.str "t1", .str "t2"])) :
    (∀ v, getKey fsx F = some v →
      getProp (resolveExtends templates (.obj fsx)) F = some v) ∧
    (∀ w, getKey fsx F = none → getKey t2f F = some w →
      getProp (resolveExtends templates (.obj fsx)) F = some w) := by
  have hres : resolveExtends templates (.obj fsx) =
      .obj (spreadFields (spreadFields (spreadFields [] t1f) t2f)
        (setKey fsx "$extends" (.arr [.str "t1", .str "t2"]))) := by
    unfold resolveExtends
    rw [hx]
    dsimp only [List.foldl_cons, List.foldl_nil, jsToString]
    rw [h1]
    dsimp only
    rw [h2]
    rfl
  constructor
  · intro v hv
    rw [hres]
    dsimp only [getProp]
    apply getKey_spread_some_right
    rw [getKey_setKey_ne fsx F "$extends" _ hF]
    exact hv
  · intro w hnone hw
    rw [hres]
    dsimp only [getProp]
    rw [getKey_spread_none_right _ _ F
      (by rw [getKey_setKey_ne fsx F "$extends" _ hF]; exact hnone)]
    exact getKey_spread_some_right _ _ F w hw

theorem resolveExtends_precedence_witness :
    getKey [("t1", Json.obj [("f", Json.num 1), ("g", Json.num 10)]),
      ("t2", Json.obj [("f", Json.num 2)])] "t1" =
        some (.obj [("f", .num 1), ("g", .num 10)]) ∧
    getProp (resolveExtends
      [("t1", .obj [("f", .num 1), ("g", .num 10)]), ("t2", .obj [("f", .num 2)])]
      (.obj [("$extends", .arr [.str "t1", .str "t2"]), ("class", .str "light")]))
      "class" = some (.str "light") ∧
    getProp (resolveExtends
      [("t1", .obj [("f", .num 1), ("g", .num 10)]), ("t2", .obj [("f", .num 2)])]
      (.obj [("$extends", .arr [.str "t1", .str "t2"]), ("class", .str "light")]))
      "f" = some (.num 2) :=
  ⟨rfl,
    (resolveExtends_precedence
      [("t1", .obj [("f", .num 1), ("g", .num 10)]), ("t2", .obj [("f", .num 2)])]
      [("f", .num 1), ("g", .num 10)] [("f", .num 2)]
      [("$extends", .arr [.str "t1", .str "t2"]), ("class", .str "light")]
      "class" (by decide) rfl rfl rfl).1 (.str "light") rfl,
    (resolveExtends_precedence
      [("t1", .obj [("f", .num 1), ("g", .num 10)]), ("t2", .obj [("f", .num 2)])]
      [("f", .num 1), ("g", .num 10)] [("f", .num 2)]
      [("$extends", .arr [.str "t1", .str "t2"]), ("class", .str "light")]
      "f" (by decide) rfl rfl rfl).2 (.num 2) rfl rfl⟩

/-- C5: the per-card rewrite of a driver-scoped flow card.  The source
assigns card.args = cards.args || [] - reading .args off the cards
ARRAY, which is always undefined - so the card's pre-existing
argument list is wiped and replaced by the device argument alone: the
original text-argument named "other" is absent from the result.  The
device argument itself is built as specified (name "device" when no
$deviceName override, filter "driver_id=<driver id>"). -/
theorem composeDriverCard_wipes_args :
    composeDriverCard "mydriver"
      (.obj [("id", .str "turned_on"),
        ("args", .arr [.obj [("type", .str "text"), ("name", .str "other")]])]) =
    .ok (.obj [("id", .str "turned_on"),
      ("args", .arr [.obj [("type", .str "device"), ("name", .str "device"),
        ("filter", .str "driver_id=mydriver")]])]) := by
  rfl

theorem mergeFieldsFold_cons (t : Json) (k : String) (sv : Json) (sf dest : Doc) :
    mergeFieldsFold t ((k, sv) :: sf) dest =
      mergeFieldsFold t sf (setKey dest k
        (if isMergeable sv then
          match getTruthy t k with
          | some tv => deepmerge tv sv
          | none => sv
        else sv)) := rfl

theorem getKey_mergeFieldsFold_not_mem (t : Json) :
    ∀ (sf : Doc) (dest : Doc) (k : String), k ∉ keys sf →
      getKey (mergeFieldsFold t sf dest) k = getKey dest k
  | [], _, _, _ => rfl
  | (k2, sv) :: sf, dest, k, h => by
    simp only [keys, List.map_cons, List.mem_cons] at h
    rw [mergeFieldsFold_cons]
    rw [getKey_mergeFieldsFold_not_mem t sf _ k (fun hm => h (Or.inr hm))]
    exact getKey_setKey_ne dest k k2 _ (fun he => h (Or.inl he))

theorem getKey_mergeFieldsFold_mem (t : Json) :
    ∀ (sf : Doc) (dest : Doc) (k : String) (sv : Json),
      (keys sf).Nodup → (k, sv) ∈ sf →
      getKey (mergeFieldsFold t sf dest) k =
        some (if isMergeable sv then
                match getTruthy t k with
                | some tv => deepmerge tv sv
                | none => sv
              else sv)
  | [], _, _, sv, _, hm => absurd hm (List.not_mem_nil _)
  | (k2, sv2) :: sf, dest, k, sv, hnd, hm => by
    simp only [keys, List.map_cons, List.nodup_cons] at hnd
    rcases List.mem_cons.1 hm with he | hm2
    · cases he
      rw [mergeFieldsFold_cons]
      rw [getKey_mergeFieldsFold_not_mem t sf _ k2 hnd.1]
      exact getKey_setKey_self _ _ _
    · rw [mergeFieldsFold_cons]
      exact getKey_mergeFieldsFold_mem t sf _ k sv hnd.2 hm2

/-- C6: what the locale deep merge actually does to a source field.  A
mapping source value with a truthy target value merges recursively, a
scalar source value replaces the earlier value - but arrays are
CONCATENATED by deepmerge's defaultArrayMerge, not replaced as the
spec claims (first conjunct; the closed counterexample against the
spec-modelled merge is deepmerge_concats_arrays). -/
theorem deepmerge_key_semantics (t : Json) (sf : Doc) (k : String) (sv : Json)
    (ht : ∀ xs, t ≠ Json.arr xs)
    (hnd : (keys sf).Nodup) (hm : (k, sv) ∈ sf) :
    (∀ xs ys, deepmerge (.arr xs) (.arr ys) = .arr (xs ++ ys)) ∧
    getProp (deepmerge t (.obj sf)) k =
      some (if isMergeable sv then
              match getTruthy t k with
              | some tv => deepmerge tv sv
              | none => sv
            else sv) := by
  refine ⟨fun xs ys => rfl, ?_⟩
  have hstep : deepmerge t (.obj sf) = .obj (mergeFieldsFold t sf (mergeBase t)) := by
    cases t with
    | arr xs => exact absurd rfl (ht xs)
    | null => rfl
    | bool b => rfl
    | num n => rfl
    | str s => rfl
    | obj tf => rfl
  rw [hstep]
  dsimp only [getProp]
  exact getKey_mergeFieldsFold_mem t sf (mergeBase t) k sv hnd hm

theorem deepmerge_key_semantics_witness :
    (keys [("a", Json.obj [("y", Json.num 2)]), ("s", Json.str "new")]).Nodup ∧
    getProp (deepmerge (.obj [("a", .obj [("x", .num 1)]), ("s", .str "old")])
      (.obj [("a", .obj [("y", .num 2)]), ("s", .str "new")])) "s" = some (.str "new") :=
  ⟨by decide,
    (deepmerge_key_semantics (.obj [("a", .obj [("x", .num 1)]), ("s", .str "old")])
      [("a", .obj [("y", .num 2)]), ("s", .str "new")] "s" (.str "new")
      (fun xs h => Json.noConfusion h) (by decide) (by decide)).2⟩

theorem deepmerge_concats_arrays :
    deepmerge (.obj [("colors", .arr [.num 1])]) (.obj [("colors", .arr [.num 2])]) =
      .obj [("colors", .arr [.num 1, .num 2])] ∧
    deepmergeSpecReplace (.obj [("colors", .arr [.num 1])])
      (.obj [("colors", .arr [.num 2])]) = .obj [("colors", .arr [.num 2])] ∧
    deepmerge (.obj [("colors", .arr [.num 1])]) (.obj [("colors", .arr [.num 2])]) ≠
      deepmergeSpecReplace (.obj [("colors", .arr [.num 1])])
        (.obj [("colors", .arr [.num 2])]) :=
  ⟨rfl, rfl, by decide⟩

/-- C7: the top-level merge of step 1 is the object spread of the
overlay followed by the base manifest, so the BASE is spread last: on
every key present in both documents the base manifest's value wins,
and the overlay contributes only the keys the base lacks.  This is
the opposite precedence of the claimed "overlay wins"; the closed
counterexample against the spec is run_overlay_loses. -/
theorem appJsonMerge_base_wins (composeJ base : Json) (k : String) :
    (∀ v, getKey (ownFields base) k = some v →
      getKey (appJsonMerge composeJ base) k = some v) ∧
    (getKey (ownFields base) k = none →
      getKey (appJsonMerge composeJ base) k = getKey (ownFields composeJ) k) := by
  constructor
  · intro v hv
    exact getKey_spread_some_right _ _ _ _ hv
  · intro h
    exact getKey_spread_none_right _ _ _ h

theorem appJsonMerge_base_wins_witness :
    getKey (ownFields (Json.obj [("id", Json.str "base")])) "id" = some (.str "base") ∧
    getKey (appJsonMerge (.obj [("id", .str "overlay"), ("version", .str "2")])
      (.obj [("id", .str "base")])) "id" = some (.str "base") ∧
    getKey (appJsonMerge (.obj [("id", .str "overlay"), ("version", .str "2")])
      (.obj [("id", .str "base")])) "version" = some (.str "2") :=
  ⟨rfl,
    (appJsonMerge_base_wins (.obj [("id", .str "overlay"), ("version", .str "2")])
      (.obj [("id", .str "base")]) "id").1 (.str "base") rfl,
    (appJsonMerge_base_wins (.obj [("id", .str "overlay"), ("version", .str "2")])
      (.obj [("id", .str "base")]) "version").2 rfl⟩

theorem run_overlay_loses : run fsC7 = .ok [("id", .str "base")] := by
  rfl

/-- C8: the base manifest is not optional.  Its ENOENT is thrown outside
any try/catch in run(), so a missing app.json aborts assembly with
the error; it is the compose-root OVERLAY whose absence is caught and
treated as an empty document.  This refutes the claimed
missing-optional-resource handling for app.json; the closed
counterexample is run_missing_base_fails. -/
theorem run_base_required (fs : ComposeFS) :
    (fs.appJson = none → run fs = .error "ENOENT: no such file or directory app.json") ∧
    (fs.appJsonCompose = none →
      run fs = run { fs with appJsonCompose := some (.obj []) }) := by
  constructor
  · intro h
    unfold run
    rw [h]
    rfl
  · intro h
    unfold run
    rw [h]
    rfl

theorem run_base_required_witness :
    fsC8.appJson = none ∧
    run fsC8 = .error "ENOENT: no such file or directory app.json" ∧
    fsC3.appJsonCompose = none ∧
    run fsC3 = run { fsC3 with appJsonCompose := some (.obj []) } :=
  ⟨rfl, (run_base_required fsC8).1 rfl, rfl, (run_base_required fsC3).2 rfl⟩

theorem run_missing_base_fails :
    run fsC8 = .error "ENOENT: no such file or directory app.json" := by
  rfl

theorem lastFold_init (f : String × Json → String) (k : String) :
    ∀ (l : List (String × Json)) (o : Option Json),
      l.foldl (fun acc p => if f p == k then some p.2 else acc) o =
        match lastResolved f l k with
        | some v => some v
        | none => o
  | [], _ => rfl
  | p :: l, o => by
    unfold lastResolved
    rw [List.foldl_cons, List.foldl_cons, lastFold_init f k l (if f p == k then some p.2 else o),
      lastFold_init f k l (if f p == k then some p.2 else none)]
    cases hl : lastResolved f l k with
    | some v => rfl
    | none =>
      dsimp only
      by_cases hp : (f p == k) = true
      · rw [if_pos hp, if_pos hp]
      · rw [if_neg hp, if_neg hp]

theorem lastResolved_cons (f : String × Json → String) (k : String) (p : String × Json)
    (l : List (String × Json)) :
    lastResolved f (p :: l) k =
      match lastResolved f l k with
      | some v => some v
      | none => if f p == k then some p.2 else none := by
  unfold lastResolved
  rw [List.foldl_cons]
  exact lastFold_init f k l _

theorem getKey_upsertFold_aux (f : String × Json → String) (k : String) :
    ∀ (l : List (String × Json)) (acc : Doc),
      getKey (l.foldl (fun acc p => setKey acc (f p) p.2) acc) k =
        match lastResolved f l k with
        | some v => some v
        | none => getKey acc k
  | [], _ => rfl
  | p :: l, acc => by
    rw [List.foldl_cons, getKey_upsertFold_aux f k l (setKey acc (f p) p.2),
      lastResolved_cons f k p l]
    cases hl : lastResolved f l k with
    | some v => rfl
    | none =>
      dsimp only
      by_cases hp : (f p == k) = true
      · rw [if_pos hp]
        have he : f p = k := eq_of_beq hp
        rw [he]
        exact getKey_setKey_self acc k p.2
      · rw [if_neg hp]
        exact getKey_setKey_ne acc k (f p) p.2
          (fun heq => hp (beq_iff_eq.2 heq.symm))

theorem getKey_upsertFold (f : String × Json → String) (l : List (String × Json))
    (k : String) : getKey (upsertFold f l) k = lastResolved f l k := by
  unfold upsertFold
  rw [getKey_upsertFold_aux f k l []]
  cases hl : lastResolved f l k with
  | some v => rfl
  | none => rfl

theorem keys_map_setKeyFn_eq (k : String) (v : Json) :
    ∀ d : Doc, keys (d.map (fun kv => if kv.1 == k then (k, v) else kv)) = keys d
  | [] => rfl
  | kv :: d => by
    show keys ((if kv.1 == k then (k, v) else kv) :: d.map _) = keys (kv :: d)
    by_cases h : (kv.1 == k) = true
    · rw [if_pos h]
      have he : kv.1 = k := eq_of_beq h
      show k :: keys (d.map _) = kv.1 :: keys d
      rw [keys_map_setKeyFn_eq k v d, he]
    · rw [if_neg h]
      show kv.1 :: keys (d.map _) = kv.1 :: keys d
      rw [keys_map_setKeyFn_eq k v d]

theorem keys_setKey_eq (d : Doc) (k : String) (v : Json) :
    keys (setKey d k v) = if (getKey d k).isSome then keys d else keys d ++ [k] := by
  unfold setKey
  by_cases hg : (getKey d k).isSome = true
  · rw [if_pos hg, if_pos hg]
    exact keys_map_setKeyFn_eq k v d
  · rw [if_neg hg, if_neg hg]
    simp [keys]

theorem nodup_keys_setKey (d : Doc) (k : String) (v : Json) (h : (keys d).Nodup) :
    (keys (setKey d k v)).Nodup := by
  rw [keys_setKey_eq]
  by_cases hg : (getKey d k).isSome = true
  · rw [if_pos hg]
    exact h
  · rw [if_neg hg]
    have hnm : k ∉ keys d := fun hm => hg ((getKey_isSome_iff d k).2 hm)
    simp [List.nodup_append, h, hnm]

theorem nodup_keys_upsertFold_aux (f : String × Json → String) :
    ∀ (l : List (String × Json)) (acc : Doc), (keys acc).Nodup →
      (keys (l.foldl (fun acc p => setKey acc (f p) p.2) acc)).Nodup
  | [], _, h => h
  | p :: l, acc, h => by
    rw [List.foldl_cons]
    exact nodup_keys_upsertFold_aux f l _ (nodup_keys_setKey acc (f p) p.2 h)

theorem nodup_keys_upsertFold (f : String × Json → String) (l : List (String × Json)) :
    (keys (upsertFold f l)).Nodup :=
  nodup_keys_upsertFold_aux f l [] List.nodup_nil

theorem getKey_singleton (k : String) (w : Json) : getKey [(k, w)] k = some w := by
  simp [getKey]

theorem setKey_singleton (k : String) (w w2 : Json) : setKey [(k, w)] k w2 = [(k, w2)] := by
  simp [setKey, getKey]

theorem capsFold_section :
    ∀ (caps : List (String × Json)) (d cs : Doc),
      getKey d "capabilities" = some (.obj cs) →
      getKey (caps.foldl capabilityStep d) "capabilities" =
        some (.obj (caps.foldl (fun acc p => setKey acc (capabilityKey p.1 p.2) p.2) cs))
  | [], _, _, h => h
  | p :: caps, d, cs, h => by
    rw [List.foldl_cons, List.foldl_cons]
    apply capsFold_section caps _ _
    unfold capabilityStep
    rw [h]
    dsimp only [truthy]
    rw [if_pos rfl]
    exact getKey_setKey_self d "capabilities" _

theorem sigsFold_section (freq : String) :
    ∀ (sigs : List (String × Json)) (d ss : Doc),
      getKey d "signals" = some (.obj [(freq, .obj ss)]) →
      getKey (sigs.foldl (signalStep freq) d) "signals" =
        some (.obj [(freq,
          .obj (sigs.foldl (fun acc p => setKey acc (signalKey p.1 p.2) p.2) ss))])
  | [], _, _, h => h
  | p :: sigs, d, ss, h => by
    rw [List.foldl_cons, List.foldl_cons]
    apply sigsFold_section freq sigs _ _
    unfold signalStep
    rw [h]
    dsimp only [truthy]
    rw [if_pos rfl]
    dsimp only
    rw [getKey_singleton freq (.obj ss)]
    dsimp only [truthy]
    rw [if_pos rfl]
    dsimp only
    rw [setKey_singleton freq (.obj ss) _]
    exact getKey_setKey_self d "signals" _

/-- C9: the capabilities and signals sections are keyed mappings, not
push-lists.  The mapping either loop builds assigns each fragment
under its resolved id (the truthy $id override, else the file id -
for signals with a redundant .json stripped), so its keys carry no
duplicates and a lookup returns exactly the value of the
later-processed fragment among those resolving to the same id; and
the assembled sections are exactly that mapping: a non-empty
capabilities directory stores it under "capabilities", and a
non-empty frequency band stores it under the band key inside
"signals". -/
theorem keyed_sections_last_wins (caps sigs : List (String × Json)) (d : Doc)
    (freq : String) (k : String) :
    (keys (upsertFold (fun p => capabilityKey p.1 p.2) caps)).Nodup ∧
    getKey (upsertFold (fun p => capabilityKey p.1 p.2) caps) k =
      lastResolved (fun p => capabilityKey p.1 p.2) caps k ∧
    (keys (upsertFold (fun p => signalKey p.1 p.2) sigs)).Nodup ∧
    getKey (upsertFold (fun p => signalKey p.1 p.2) sigs) k =
      lastResolved (fun p => signalKey p.1 p.2) sigs k ∧
    (∀ p0, getKey (composeCapabilities (p0 :: caps) d) "capabilities" =
      some (.obj (upsertFold (fun p => capabilityKey p.1 p.2) (p0 :: caps)))) ∧
    (∀ p0, getKey d "signals" = none →
      getKey (addSignals freq (p0 :: sigs) d) "signals" =
        some (.obj [(freq, .obj (upsertFold (fun p => signalKey p.1 p.2) (p0 :: sigs)))])) := by
  refine ⟨nodup_keys_upsertFold _ caps, getKey_upsertFold _ caps k,
    nodup_keys_upsertFold _ sigs, getKey_upsertFold _ sigs k, ?_, ?_⟩
  · intro p0
    unfold composeCapabilities upsertFold
    rw [List.foldl_cons, List.foldl_cons]
    apply capsFold_section caps _ _
    unfold capabilityStep
    rw [(getKey_eq_none_iff _ _).2 (not_mem_keys_delKey d "capabilities")]
    dsimp only
    exact getKey_setKey_self _ "capabilities" _
  · intro p0 hnone
    unfold addSignals upsertFold
    rw [List.foldl_cons, List.foldl_cons]
    apply sigsFold_section freq sigs _ _
    unfold signalStep
    rw [hnone]
    dsimp only
    rw [show getKey ([] : Doc) freq = none from rfl]
    dsimp only
    rw [show setKey ([] : Doc) freq (.obj (setKey [] (signalKey p0.1 p0.2) p0.2)) =
      [(freq, .obj (setKey [] (signalKey p0.1 p0.2) p0.2))] from rfl]
    exact getKey_setKey_self d "signals" _

theorem keyed_sections_last_wins_witness :
    getKey (composeCapabilities
      [("dim", .obj [("type", .str "number")]),
       ("other", .obj [("$id", .str "dim"), ("type", .str "boolean")])] []) "capabilities" =
      some (.obj [("dim", .obj [("$id", .str "dim"), ("type", .str "boolean")])]) ∧
    getKey [("dim", Json.obj [("$id", Json.str "dim"), ("type", Json.str "boolean")])]
      "dim" = some (.obj [("$id", .str "dim"), ("type", .str "boolean")]) ∧
    getKey (addSignals "433"
      [("sig", .obj [("sof", .arr [.num 1])]),
       ("sig2", .obj [("$id", .str "sig"), ("sof", .arr [.num 2])])] []) "signals" =
      some (.obj [("433", .obj [("sig", .obj [("$id", .str "sig"),
        ("sof", .arr [.num 2])])])]) :=
  ⟨by
    have h := ((keyed_sections_last_wins
      [("other", .obj [("$id", .str "dim"), ("type", .str "boolean")])] [] [] "433"
      "dim").2.2.2.2.1 ("dim", .obj [("type", .str "number")]))
    exact h.trans (by rfl),
   by rfl,
   by
    have h := ((keyed_sections_last_wins []
      [("sig2", .obj [("$id", .str "sig"), ("sof", .arr [.num 2])])] [] "433"
      "sig").2.2.2.2.2 ("sig", .obj [("sof", .arr [.num 1])]) rfl)
    exact h.trans (by rfl)⟩

/-- C10: the dollar-stripping pass really does bypass the locale files -
but the $-key of a fragment survives into the written
locales/lang.json only when no later-merged fragment for the same
language discards it: a whole-language single fragment writes its
fields verbatim, $-keys included, into the language file (the witness
exhibits a written "$x" that C1 shows could never reach the
manifest).  The claim as stated - EVERY fragment's $-keys survive -
is refuted by the closed counterexample localeFile_loses_dollar,
where a later whole-language fragment replaces the subtree holding
the $-key. -/
theorem localeFile_keeps_dollar (fid : String) (tf : Doc) (k : String) (v : Json)
    (hsingle : (splitOnDot (stripJson fid)).tail = [])
    (hnd : (keys tf).Nodup) (hkv : (k, v) ∈ tf) :
    ∃ tree, composeLocales [] [(fid, .obj tf)] = .ok [(localeLang fid, tree)] ∧
      getProp tree k = some v := by
  refine ⟨deepmerge (.obj []) (.obj tf), ?_, ?_⟩
  · have hm : localeMerge (localeBase [] (localeLang fid))
        (splitOnDot (stripJson fid)).tail (Json.obj tf) =
        .ok (deepmerge (.obj []) (.obj tf)) := by
      unfold localeMerge
      rw [hsingle]
      rfl
    have hstep := localeFragmentStep_ok_intro { locales := [], changed := [] }
      (fid, .obj tf) (deepmerge (.obj []) (.obj tf)) hm
    unfold composeLocales composeLocalesCore
    rw [List.foldlM_cons, hstep]
    simp only [ok_bind]
    show Except.ok (localesWritten _) = _
    unfold localesWritten
    dsimp only
    rw [show (([] : List String).contains (localeLang fid)) = false from rfl]
    simp only [Bool.false_eq_true, if_false, List.nil_append, List.map_cons, List.map_nil]
    rw [getKey_setKey_self]
    rfl
  · show getKey (mergeFieldsFold (.obj []) tf (mergeBase (.obj []))) k = some v
    rw [getKey_mergeFieldsFold_mem (.obj []) tf (mergeBase (.obj [])) k v hnd hkv]
    by_cases hmg : isMergeable v = true
    · rw [if_pos hmg]
      rfl
    · rw [if_neg hmg]

theorem localeFile_keeps_dollar_witness :
    (splitOnDot (stripJson "en")).tail = [] ∧
    (keys [("$x", Json.num 1), ("foo", Json.num 5)]).Nodup ∧
    ∃ tree, composeLocales [] [("en", .obj [("$x", .num 1), ("foo", .num 5)])] =
      .ok [(localeLang "en", tree)] ∧ getProp tree "$x" = some (.num 1) :=
  ⟨by rfl, by decide,
    localeFile_keeps_dollar "en" [("$x", .num 1), ("foo", .num 5)] "$x" (.num 1)
      (by rfl) (by decide) (by decide)⟩

theorem localeFile_loses_dollar :
    composeLocales [] [("en.foo", .obj [("$x", .num 1)]), ("en", .obj [("foo", .num 5)])] =
      .ok [("en", .obj [("foo", .num 5)])] ∧
    containsKey (.obj [("foo", .num 5)]) "$x" = false := by
  exact ⟨by rfl, by rfl⟩

end AthomCompose
